import Mathlib

/-!
# Whitebox ECDSA driver (`whibox/drivers/main_a.c`)

A shallow embedding of the command-line harness and of the signing primitive
it links against.

* The driver (`main`) is translated from the C source.  The signing function
  `ECDSA_256_sign` is only declared there, so the driver is parameterised by
  it.
* The run of `main` is recorded as the list of its observable actions: the
  call of the signer (with the contents of the buffers it is handed) and the
  `printf` calls.
-/

namespace Whibox

/-! ## C data -/

/-- A C `uint8_t` / `unsigned char` cell: an integer in `[0, 255]`. -/
abbrev Byte := Fin 256

/-- The array `uint8_t sig[64]`. -/
abbrev SigBuf := Fin 64 → Byte

/-- The array `const uint8_t hash[32]`. -/
abbrev HashBuf := Fin 32 → Byte

/-- Parameter types that occur in the declaration of the signer. -/
inductive CParam where
  | ucharArray (len : Nat)
  | constUcharArray (len : Nat)
  deriving DecidableEq, Repr

/-- A C function declaration: name and parameter list (return type `void`). -/
structure CDecl where
  name : String
  params : List (CParam × String)
  deriving DecidableEq, Repr

/-- Line 7:
`void ECDSA_256_sign(unsigned char sig[64], const unsigned char hash[32]);` -/
def ECDSA_256_sign_decl : CDecl :=
  { name := "ECDSA_256_sign"
    params := [(CParam.ucharArray 64, "sig"), (CParam.constUcharArray 32, "hash")] }

/-- Behaviour of a linked `ECDSA_256_sign`: from the contents of the output
buffer at the call and the digest to the contents of the buffer when the call
returns; `none` when the call never returns.  The digest buffer is `const`
and is not changed. -/
abbrev Signer := SigBuf → HashBuf → Option SigBuf

/-! ## `printf` -/

/-- The character `%X` prints for one hexadecimal digit `d < 16`. -/
def upperHexDigit (d : Nat) : Char :=
  if d < 10 then Char.ofNat (48 + d) else Char.ofNat (55 + d)

/-- Conversion `%X` without padding: the digits of `v` in base 16, most
significant first, pushed in front of `acc`.  `fuel` bounds the number of
digits. -/
def upperHexDigits : Nat → Nat → List Char → List Char
  | 0, _, acc => acc
  | fuel + 1, v, acc =>
    if v / 16 = 0 then upperHexDigit (v % 16) :: acc
    else upperHexDigits fuel (v / 16) (upperHexDigit (v % 16) :: acc)

/-- The call `printf("%02X", v)`: upper-case hexadecimal, minimum field
width 2, padded with zeros on the left. -/
def printf_02X (v : Nat) : List Char :=
  let digits := upperHexDigits (v + 1) v []
  List.replicate (2 - digits.length) '0' ++ digits

/-! ## The driver -/

/-- Observable actions of `main`. -/
inductive Event where
  /-- A call of an external function; every argument is a pointer to a byte
  buffer and is recorded as the contents of that buffer at the call. -/
  | call (callee : String) (args : List (List Byte))
  /-- Characters written to standard output by one `printf`. -/
  | write (text : List Char)
  deriving DecidableEq, Repr

/-- A run of `main`: its actions in program order and its return value
(`none` when `main` does not return because the signer does not). -/
structure Run where
  events : List Event
  exit : Option Int
  deriving DecidableEq, Repr

/-- Lines 11-14: the initialiser list of `hash`. -/
def main_hash_init : List Byte :=
  [0xaa, 0xaa, 0xaa, 0xaa, 0xaa, 0xaa, 0xaa, 0xaa, 0xaa, 0xaa, 0xaa, 0xaa, 0xaa, 0xaa, 0xaa, 0xaa,
    0xaa, 0xaa, 0xaa, 0xaa, 0xaa, 0xaa, 0xaa, 0xaa, 0xaa, 0xaa, 0xaa, 0xaa, 0xaa, 0xaa, 0xaa, 0xaa]

/-- Line 11: the array `const uint8_t hash[32]` of `main` after its
initialisation: cell `i` holds the `i`-th initialiser (a cell without one
would hold 0).  The name `hash` alone is taken by the core library. -/
def main_hash : HashBuf :=
  fun i => main_hash_init.getD i.val 0

/-- Lines 19-21: `for (int i = 0; i < 64; i++) printf("%02X", sig[i]);`
run after the actions `ev`. -/
def main_loop (sig : SigBuf) (ev : List Event) : List Event :=
  (List.finRange 64).foldl (fun ev i => ev ++ [Event.write (printf_02X (sig i).val)]) ev

/-- The function `int main(int argc, char *argv[])`.  `sig0` is the
(indeterminate) content of the uninitialised array `sig`, `ECDSA_256_sign`
the linked signer. -/
def main (_argc : Int) (_argv : List String) (sig0 : SigBuf) (ECDSA_256_sign : Signer) : Run :=
  let hash := main_hash
  let sig := sig0
  let ev := [Event.call "ECDSA_256_sign" [List.ofFn sig, List.ofFn hash]]
  match ECDSA_256_sign sig hash with
  | none => { events := ev, exit := none }
  | some sig =>
    let ev := main_loop sig ev
    let ev := ev ++ [Event.write ['\n']]
    { events := ev, exit := some 0 }

/-- What one action adds to standard output. -/
def Event.output : Event → List Char
  | Event.call _ _ => []
  | Event.write text => text

/-- Everything `main` wrote to standard output during the run. -/
def Run.stdout (r : Run) : List Char :=
  r.events.flatMap Event.output

/-- The argument lists of the calls of `callee` during the run. -/
def Run.callsOf (r : Run) (callee : String) : List (List (List Byte)) :=
  r.events.filterMap fun e =>
    match e with
    | Event.call c args => if c = callee then some args else none
    | Event.write _ => none

/-! ## Sample signers and buffers -/

/-- A buffer of 64 zero bytes. -/
def zeroSig : SigBuf := fun _ => 0

/-- A signer that stores `b` in every cell of the output buffer. -/
def fillSigner (b : Byte) : Signer := fun _ _ => some (fun _ => b)

/-- A signer that returns without writing to the output buffer. -/
def idleSigner : Signer := fun sig _ => some sig

/-- A signer that never returns. -/
def stuckSigner : Signer := fun _ _ => none

/-- A signer that returns the given buffer contents. -/
def constSigner (sig : SigBuf) : Signer := fun _ _ => some sig

/-! ## Reading the printed line (definitions that follow the specification) -/

/-- The sixteen characters of upper-case hexadecimal, by value. -/
def hexAlphabet : List Char :=
  ['0', '1', '2', '3', '4', '5', '6', '7', '8', '9', 'A', 'B', 'C', 'D', 'E', 'F']

/-- Two-digit rendering of a byte, high nibble first. -/
def hexPair (b : Byte) : List Char :=
  [hexAlphabet.getD (b.val / 16) '?', hexAlphabet.getD (b.val % 16) '?']

/-- The line the specification describes for a signature buffer. -/
def hexLine (sig : SigBuf) : List Char :=
  (List.ofFn sig).flatMap hexPair ++ ['\n']

/-- Value of one hexadecimal digit character. -/
def hexDigitValue (c : Char) : Option Nat :=
  if '0' ≤ c ∧ c ≤ '9' then some (c.toNat - 48)
  else if 'A' ≤ c ∧ c ≤ 'F' then some (c.toNat - 55)
  else if 'a' ≤ c ∧ c ≤ 'f' then some (c.toNat - 87)
  else none

/-- Reads `cs` as a base-16 numeral continuing the value `acc`. -/
def readHexFrom : Nat → List Char → Option Nat
  | acc, [] => some acc
  | acc, c :: cs =>
    match hexDigitValue c with
    | none => none
    | some d => readHexFrom (16 * acc + d) cs

/-- Reads `cs` as a base-16 numeral. -/
def readHex (cs : List Char) : Option Nat :=
  readHexFrom 0 cs

/-- Decodes each consecutive pair of hexadecimal digits as one byte. -/
def decodeHexPairs : List Char → Option (List Byte)
  | [] => some []
  | [_] => none
  | a :: b :: rest =>
    match hexDigitValue a, hexDigitValue b, decodeHexPairs rest with
    | some x, some y, some bytes => some (Fin.ofNat (16 * x + y) :: bytes)
    | _, _, _ => none

/-- Byte `i` (0 is the most significant) of the 32-byte big-endian encoding
of `v`. -/
def bigEndianByte (v : Nat) (i : Nat) : Byte :=
  Fin.ofNat (v / 256 ^ (31 - i))

/-- The buffer holding big-endian `r` in bytes 0..31 and big-endian `s` in
bytes 32..63. -/
def rsBuffer (r s : Nat) : SigBuf :=
  fun i => if i.val < 32 then bigEndianByte r i.val else bigEndianByte s (i.val - 32)

/-- Big-endian value of a list of bytes. -/
def bigEndianValue (bytes : List Byte) : Nat :=
  bytes.foldl (fun acc b => 256 * acc + b.val) 0

/-! ## The signing primitive

`ECDSA_256_sign` is declared in `main_a.c` and defined in a file that is
linked separately.  The definitions of this section follow the description
of the primitive in the specification (§3, §4, §6, §7). -/

/-- Modelled from the spec: the error taxonomy of §7, for the body of
`ECDSA_256_sign`, which `main_a.c` only declares. -/
inductive SignError where
  | InvalidInverse
  | InvalidScalar
  | EntropyUnavailable
  | NonceExhausted
  deriving DecidableEq, Repr

/-- Modelled from the spec: the process-wide read-only curve constants
`p`, `n`, `b`, `G` (§3) of the curve `y² = x³ − 3x + b`. -/
structure Curve where
  p : Nat
  n : Nat
  b : Nat
  gx : Nat
  gy : Nat
  deriving DecidableEq, Repr

/-- Modelled from the spec: the NIST P-256 constants, with
`p = 2^256 − 2^224 + 2^192 + 2^96 − 1` (§3). -/
def P256 : Curve :=
  { p := 2 ^ 256 - 2 ^ 224 + 2 ^ 192 + 2 ^ 96 - 1
    n := 0xFFFFFFFF00000000FFFFFFFFFFFFFFFFBCE6FAADA7179E84F3B9CAC2FC632551
    b := 0x5AC635D8AA3A93E7B3EBBD55769886BC651D06B0CC53B0F63BCE3C3E27D2604B
    gx := 0x6B17D1F2E12C4247F8BCE6E563A440F277037D812DEB33A0F4A13945D898C296
    gy := 0x4FE342E2FE1A7F9B8EE7EB4A7C0F9E162BCE33576B315ECECBB6406837BF51F5 }

/-- Square-and-multiply `a ^ e mod m`; `fuel` bounds the number of bits of
`e`. -/
def powModAux (m : Nat) : Nat → Nat → Nat → Nat
  | 0, _, _ => 1 % m
  | fuel + 1, a, e =>
    if e = 0 then 1 % m
    else
      let h := powModAux m fuel a (e / 2)
      if e % 2 = 1 then h * h % m * a % m else h * h % m

/-- Modular exponentiation `a ^ e mod m`. -/
def powMod (m a e : Nat) : Nat :=
  powModAux m e a e

/-- Modelled from the spec: field addition mod `p` (§4.1). -/
def fieldAdd (c : Curve) (a b : Nat) : Nat :=
  (a + b) % c.p

/-- Modelled from the spec: field subtraction mod `p` (§4.1). -/
def fieldSub (c : Curve) (a b : Nat) : Nat :=
  (a + (c.p - b % c.p)) % c.p

/-- Modelled from the spec: field multiplication mod `p` (§4.1). -/
def fieldMul (c : Curve) (a b : Nat) : Nat :=
  a * b % c.p

/-- Modelled from the spec: field inverse mod `p`; the inverse of zero is
the error `InvalidInverse` (§4.1). -/
def fieldInverse (c : Curve) (a : Nat) : Except SignError Nat :=
  if a % c.p = 0 then Except.error SignError.InvalidInverse
  else Except.ok (powMod c.p a (c.p - 2))

/-- Modelled from the spec: scalar addition mod `n` (§4.2). -/
def scalarAdd (c : Curve) (a b : Nat) : Nat :=
  (a + b) % c.n

/-- Modelled from the spec: scalar multiplication mod `n` (§4.2). -/
def scalarMul (c : Curve) (a b : Nat) : Nat :=
  a * b % c.n

/-- Modelled from the spec: scalar inverse mod `n`; the inverse of zero is
the error `InvalidInverse` (§4.2). -/
def scalarInverse (c : Curve) (a : Nat) : Except SignError Nat :=
  if a % c.n = 0 then Except.error SignError.InvalidInverse
  else Except.ok (powMod c.n a (c.n - 2))

/-- Modelled from the spec: a curve point, a pair `(x, y)` of field elements
or the point at infinity (§3). -/
inductive CurvePoint where
  | infinity
  | affine (x y : Nat)
  deriving DecidableEq, Repr

/-- Modelled from the spec: the fixed base point `G` (§2, §3). -/
def basePoint (c : Curve) : CurvePoint :=
  CurvePoint.affine c.gx c.gy

/-- Modelled from the spec: the curve equation `y² = x³ − 3x + b` for a
point that is not at infinity (§3). -/
def onCurve (c : Curve) : CurvePoint → Bool
  | CurvePoint.infinity => true
  | CurvePoint.affine x y =>
    fieldMul c y y
      == fieldAdd c (fieldSub c (fieldMul c (fieldMul c x x) x) (fieldMul c 3 x)) c.b

/-- Modelled from the spec: point doubling with the `a = −3` shortcut
(§4.3): the slope is `3 (x² − 1) / (2 y)`. -/
def double (c : Curve) : CurvePoint → Except SignError CurvePoint
  | CurvePoint.infinity => Except.ok CurvePoint.infinity
  | CurvePoint.affine x y =>
    if y = 0 then Except.ok CurvePoint.infinity
    else
      match fieldInverse c (fieldMul c 2 y) with
      | Except.error err => Except.error err
      | Except.ok inv =>
        let l := fieldMul c (fieldMul c 3 (fieldSub c (fieldMul c x x) 1)) inv
        let x3 := fieldSub c (fieldSub c (fieldMul c l l) x) x
        let y3 := fieldSub c (fieldMul c l (fieldSub c x x3)) y
        Except.ok (CurvePoint.affine x3 y3)

/-- Modelled from the spec: point addition; handles `P = infinity`,
`Q = infinity` and `P = Q`, which is dispatched to doubling (§4.3). -/
def add (c : Curve) : CurvePoint → CurvePoint → Except SignError CurvePoint
  | CurvePoint.infinity, Q => Except.ok Q
  | CurvePoint.affine x1 y1, CurvePoint.infinity => Except.ok (CurvePoint.affine x1 y1)
  | CurvePoint.affine x1 y1, CurvePoint.affine x2 y2 =>
    if x1 = x2 then
      if y1 = y2 then double c (CurvePoint.affine x1 y1)
      else Except.ok CurvePoint.infinity
    else
      match fieldInverse c (fieldSub c x2 x1) with
      | Except.error err => Except.error err
      | Except.ok inv =>
        let l := fieldMul c (fieldSub c y2 y1) inv
        let x3 := fieldSub c (fieldSub c (fieldMul c l l) x1) x2
        let y3 := fieldSub c (fieldMul c l (fieldSub c x1 x3)) y1
        Except.ok (CurvePoint.affine x3 y3)

/-- Double-and-add over the bits of `k`, most significant first; `fuel`
bounds the number of bits. -/
def pointMulAux (c : Curve) (P : CurvePoint) : Nat → Nat → Except SignError CurvePoint
  | 0, _ => Except.ok CurvePoint.infinity
  | fuel + 1, k =>
    if k = 0 then Except.ok CurvePoint.infinity
    else
      match pointMulAux c P fuel (k / 2) with
      | Except.error err => Except.error err
      | Except.ok h =>
        match double c h with
        | Except.error err => Except.error err
        | Except.ok d => if k % 2 = 1 then add c d P else Except.ok d

/-- The multiple `k·P` by double-and-add; `0·P` is the point at infinity. -/
def pointMul (c : Curve) (k : Nat) (P : CurvePoint) : Except SignError CurvePoint :=
  pointMulAux c P k k

/-- Modelled from the spec: `scalarMultiply(k, P)` by double-and-add; `k = 0`
is rejected with `InvalidScalar` when `P` is the base point, and gives the
point at infinity for any other `P` (§4.3, §8). -/
def scalarMultiply (c : Curve) (k : Nat) (P : CurvePoint) : Except SignError CurvePoint :=
  if k = 0 ∧ P = basePoint c then Except.error SignError.InvalidScalar
  else pointMul c k P

/-- Modelled from the spec: the two nonce strategies of §4.4.  The
deterministic one (RFC 6979) derives the candidate from the private key, the
digest and an internal counter; the HMAC-based construction is the parameter
`derive`. -/
inductive NonceStrategy where
  | rfc6979 (derive : Nat → HashBuf → Nat → Nat)
  | randomized

/-- A source of randomness: draw number `i`, or `none` when no entropy can
be obtained. -/
abbrev Entropy := Nat → Option Nat

/-- Modelled from the spec: nonce generation (§4.4); `counter` numbers the
candidates of one signing call. -/
def generateNonce (strategy : NonceStrategy) (entropy : Entropy) (privateKey : Nat)
    (digest : HashBuf) (counter : Nat) : Except SignError Nat :=
  match strategy with
  | NonceStrategy.rfc6979 derive => Except.ok (derive privateKey digest counter)
  | NonceStrategy.randomized =>
    match entropy counter with
    | none => Except.error SignError.EntropyUnavailable
    | some k => Except.ok k

/-- Modelled from the spec: steps 2-5 of the signing algorithm with its retry
loop (§4.5); `e` is the reduced digest, the first argument the number of
attempts left, the second the counter of the next nonce candidate. -/
def signLoop (c : Curve) (strategy : NonceStrategy) (entropy : Entropy) (privateKey : Nat)
    (digest : HashBuf) (e : Nat) : Nat → Nat → Except SignError (Nat × Nat)
  | 0, _ => Except.error SignError.NonceExhausted
  | tries + 1, counter =>
    match generateNonce strategy entropy privateKey digest counter with
    | Except.error err => Except.error err
    | Except.ok k =>
      if k = 0 ∨ c.n ≤ k then signLoop c strategy entropy privateKey digest e tries (counter + 1)
      else
        match scalarMultiply c k (basePoint c) with
        | Except.error err => Except.error err
        | Except.ok CurvePoint.infinity => Except.error SignError.InvalidScalar
        | Except.ok (CurvePoint.affine x _) =>
          if x % c.n = 0 then
            signLoop c strategy entropy privateKey digest e tries (counter + 1)
          else
            match scalarInverse c k with
            | Except.error err => Except.error err
            | Except.ok kinv =>
              if scalarMul c kinv (scalarAdd c e (scalarMul c (x % c.n) privateKey)) = 0 then
                signLoop c strategy entropy privateKey digest e tries (counter + 1)
              else
                Except.ok (x % c.n,
                  scalarMul c kinv (scalarAdd c e (scalarMul c (x % c.n) privateKey)))

/-- Modelled from the spec: `sign(privateKey, digest) -> Signature` (§4.5).
Step 1 reduces the big-endian value of the digest mod `n`; at most
`maxTries` nonce candidates are tried before `NonceExhausted`. -/
def sign (c : Curve) (strategy : NonceStrategy) (entropy : Entropy) (maxTries : Nat)
    (privateKey : Nat) (digest : HashBuf) : Except SignError (Nat × Nat) :=
  signLoop c strategy entropy privateKey digest
    (bigEndianValue (List.ofFn digest) % c.n) maxTries 0

/-- Modelled from the spec: the function contract
`sign(signatureOut: 64-byte buffer, digest: 32-byte buffer, privateKey)` of
§6 on P-256: the buffer is filled with big-endian `r` (bytes 0-31) then
big-endian `s` (bytes 32-63). -/
def ECDSA_256_sign (strategy : NonceStrategy) (entropy : Entropy) (maxTries : Nat)
    (_signatureOut : SigBuf) (digest : HashBuf) (privateKey : Nat) : Except SignError SigBuf :=
  match sign P256 strategy entropy maxTries privateKey digest with
  | Except.error err => Except.error err
  | Except.ok (r, s) => Except.ok (rsBuffer r s)

/-- The modelled primitive as the driver links it: the declaration of line 7
has no key parameter and returns `void`, so the key is fixed inside the
signer and a failure leaves the buffer as it was. -/
def linkedSigner (strategy : NonceStrategy) (entropy : Entropy) (maxTries : Nat)
    (privateKey : Nat) : Signer :=
  fun sig hash =>
    match ECDSA_256_sign strategy entropy maxTries sig hash privateKey with
    | Except.error _ => some sig
    | Except.ok out => some out

/-- The public key `d·G` of the private key `d`. -/
def publicKey (c : Curve) (privateKey : Nat) : Except SignError CurvePoint :=
  scalarMultiply c privateKey (basePoint c)

/-- Standard ECDSA verification (FIPS 186-4 §6.4.2) of the signature `(r, s)`
on `digest` under the public key `Q`, with its own plain double-and-add. -/
def verify (c : Curve) (Q : CurvePoint) (digest : HashBuf) (r s : Nat) : Bool :=
  match Q with
  | CurvePoint.infinity => false
  | CurvePoint.affine qx qy =>
    if ¬ (qx < c.p ∧ qy < c.p ∧ onCurve c (CurvePoint.affine qx qy) = true) then false
    else if r = 0 ∨ c.n ≤ r ∨ s = 0 ∨ c.n ≤ s then false
    else
      match scalarInverse c s with
      | Except.error _ => false
      | Except.ok w =>
        match pointMul c (scalarMul c (bigEndianValue (List.ofFn digest) % c.n) w) (basePoint c),
            pointMul c (scalarMul c r w) (CurvePoint.affine qx qy) with
        | Except.ok A, Except.ok B =>
          match add c A B with
          | Except.ok (CurvePoint.affine x _) => x % c.n == r
          | _ => false
        | _, _ => false

/-- Decidable equality of results, by cases on the constructors. -/
instance decEqExcept {ε α : Type} [DecidableEq ε] [DecidableEq α] : DecidableEq (Except ε α)
  | Except.ok a, Except.ok b =>
    if h : a = b then isTrue (congrArg Except.ok h) else isFalse (fun h2 => h (Except.ok.inj h2))
  | Except.error a, Except.error b =>
    if h : a = b then isTrue (congrArg Except.error h)
    else isFalse (fun h2 => h (Except.error.inj h2))
  | Except.ok _, Except.error _ => isFalse (fun h => Except.noConfusion h)
  | Except.error _, Except.ok _ => isFalse (fun h => Except.noConfusion h)

/-! ## Sample nonce sources -/

/-- A deterministic derivation used in examples: private key, digest and
counter added up mod `n`. -/
def sampleDerive : Nat → HashBuf → Nat → Nat :=
  fun privateKey digest counter =>
    (privateKey + bigEndianValue (List.ofFn digest) + counter) % P256.n

/-- A private key used in examples. -/
def sampleKey : Nat :=
  0xC9AFA9D845BA75166B5C215767B1D6934E50C3DB36E89B127B8A622B120F6721

/-- First component of the signature of the all-`0xAA` digest under
`sampleKey` with the nonce of `sampleDerive`. -/
def sampleR : Nat :=
  71989459587482844207493588711345192345339304066125982118644494770199567426269

/-- Second component of that signature. -/
def sampleS : Nat :=
  40928752026619146097215615520781311421276097596830453696099298666652257336510

/-- An entropy source that always draws `k`. -/
def constEntropy (k : Nat) : Entropy :=
  fun _ => some k

/-- An entropy source that is never available. -/
def noEntropy : Entropy :=
  fun _ => none

/-- The curve `y² = x³ − 3x + b` over the integers mod `p`. -/
def curveW (c : Curve) : WeierstrassCurve.Affine (ZMod c.p) :=
  { a₁ := 0, a₂ := 0, a₃ := 0, a₄ := -3, a₆ := (c.b : ZMod c.p) }

/-- The modelled point `P` stands for the point `Q` of the curve. -/
def Represents (c : Curve) : CurvePoint → (curveW c).Point → Prop
  | CurvePoint.infinity, Q => Q = 0
  | CurvePoint.affine x y, Q =>
    x < c.p ∧ y < c.p
      ∧ ∃ h : (curveW c).Nonsingular (x : ZMod c.p) (y : ZMod c.p),
          Q = WeierstrassCurve.Affine.Point.some h

/-- What the proofs need of the curve constants. -/
structure Curve.Valid (c : Curve) : Prop where
  p_prime : Nat.Prime c.p
  p_gt : 3 < c.p
  n_prime : Nat.Prime c.n
  disc : (27 * c.b * c.b) % c.p ≠ 108 % c.p
  gx_lt : c.gx < c.p
  gy_lt : c.gy < c.p
  g_on : onCurve c (basePoint c) = true
  g_order : pointMul c c.n (basePoint c) = Except.ok CurvePoint.infinity

/-- One step of a primality certificate (Lucas test): `a` has order `q - 1`
modulo `q`, where `factors` is the prime factorisation of `q - 1`. -/
structure LucasStep where
  q : Nat
  a : Nat
  factors : List Nat
  deriving Repr

/-- Checks one step against the list of numbers already certified prime. -/
def LucasStep.valid (known : List Nat) (s : LucasStep) : Bool :=
  decide (1 < s.q) && (s.factors.prod == s.q - 1)
    && s.factors.all (fun f => known.contains f)
    && (powMod s.q s.a (s.q - 1) == 1)
    && s.factors.all (fun f => powMod s.q s.a ((s.q - 1) / f) != 1)

/-- Runs a chain of steps; the result lists the numbers certified prime. -/
def certified : List Nat → List LucasStep → List Nat
  | known, [] => known
  | known, s :: rest =>
    if s.valid known then certified (s.q :: known) rest else certified known rest

/-- A chain that certifies the field prime and the group order of P-256. -/
def primalityChain : List LucasStep :=
  [ LucasStep.mk 257 3 [2, 2, 2, 2, 2, 2, 2, 2],
    LucasStep.mk 3 2 [2],
    LucasStep.mk 5 2 [2, 2],
    LucasStep.mk 641 3 [2, 2, 2, 2, 2, 2, 2, 5],
    LucasStep.mk 65537 3 [2, 2, 2, 2, 2, 2, 2, 2, 2, 2, 2, 2, 2, 2, 2, 2],
    LucasStep.mk 11 2 [2, 5],
    LucasStep.mk 727 5 [2, 3, 11, 11],
    LucasStep.mk 17449 14 [2, 2, 2, 3, 727],
    LucasStep.mk 6700417 5 [2, 2, 2, 2, 2, 2, 2, 3, 17449],
    LucasStep.mk 241 7 [2, 2, 2, 2, 3, 5],
    LucasStep.mk 2411 6 [2, 5, 241],
    LucasStep.mk 17 3 [2, 2, 2, 2],
    LucasStep.mk 7 3 [2, 3],
    LucasStep.mk 197 2 [2, 2, 7, 7],
    LucasStep.mk 43 3 [2, 3, 7],
    LucasStep.mk 173 2 [2, 2, 43],
    LucasStep.mk 13 2 [2, 2, 3],
    LucasStep.mk 53 2 [2, 2, 13],
    LucasStep.mk 919 7 [2, 3, 3, 3, 17],
    LucasStep.mk 3677 2 [2, 2, 919],
    LucasStep.mk 66417393611 6 [2, 5, 53, 173, 197, 3677],
    LucasStep.mk 11290956913871 13 [2, 5, 17, 66417393611],
    LucasStep.mk 181 2 [2, 2, 3, 3, 5],
    LucasStep.mk 1087 3 [2, 3, 181],
    LucasStep.mk 4349 2 [2, 2, 1087],
    LucasStep.mk 78283 3 [2, 3, 3, 4349],
    LucasStep.mk 23 5 [2, 11],
    LucasStep.mk 757 2 [2, 2, 3, 3, 3, 7],
    LucasStep.mk 18169 11 [2, 2, 2, 3, 757],
    LucasStep.mk 313 10 [2, 2, 2, 3, 13],
    LucasStep.mk 704251 2 [2, 3, 3, 5, 5, 5, 313],
    LucasStep.mk 46076956964474543 5 [2, 23, 18169, 78283, 704251],
    LucasStep.mk 107 2 [2, 53],
    LucasStep.mk 157 5 [2, 2, 3, 13],
    LucasStep.mk 3769 7 [2, 2, 2, 3, 157],
    LucasStep.mk 204061199 11 [2, 11, 23, 107, 3769],
    LucasStep.mk 34282281433 17 [2, 2, 2, 3, 7, 204061199],
    LucasStep.mk 774023187263532362759620327192479577272145303 3
      [2, 3, 3, 2411, 34282281433, 11290956913871, 46076956964474543],
    LucasStep.mk 835945042244614951780389953367877943453916927241 11
      [2, 2, 2, 3, 3, 3, 5, 774023187263532362759620327192479577272145303],
    LucasStep.mk 1531 2 [2, 3, 3, 5, 17],
    LucasStep.mk 661 2 [2, 2, 3, 5, 11],
    LucasStep.mk 490463 14 [2, 7, 53, 661],
    LucasStep.mk 115792089210356248762697446949407573530086143415290314195533631308867097853951 6
      [2, 3, 5, 5, 17, 257, 641, 1531, 65537, 490463, 6700417,
      835945042244614951780389953367877943453916927241],
    LucasStep.mk 131 2 [2, 5, 13],
    LucasStep.mk 71 7 [2, 5, 7],
    LucasStep.mk 37 2 [2, 2, 3, 3],
    LucasStep.mk 9547 2 [2, 3, 37, 43],
    LucasStep.mk 38189 2 [2, 2, 9547],
    LucasStep.mk 3407 5 [2, 13, 131],
    LucasStep.mk 263 5 [2, 131],
    LucasStep.mk 126241 7 [2, 2, 2, 2, 2, 3, 5, 263],
    LucasStep.mk 19 2 [2, 3, 3],
    LucasStep.mk 337 10 [2, 2, 2, 2, 3, 7],
    LucasStep.mk 31 3 [2, 3, 5],
    LucasStep.mk 104471 11 [2, 5, 31, 337],
    LucasStep.mk 3969899 2 [2, 19, 104471],
    LucasStep.mk 1002328039319 19 [2, 126241, 3969899],
    LucasStep.mk 97 5 [2, 2, 2, 2, 2, 3],
    LucasStep.mk 29 2 [2, 2, 7],
    LucasStep.mk 16879 3 [2, 3, 29, 97],
    LucasStep.mk 1297 10 [2, 2, 2, 2, 3, 3, 3, 3],
    LucasStep.mk 41 6 [2, 2, 2, 5],
    LucasStep.mk 155317 5 [2, 2, 3, 7, 43, 43],
    LucasStep.mk 191039911 3 [2, 3, 5, 41, 155317],
    LucasStep.mk 151 6 [2, 3, 5, 5],
    LucasStep.mk 1511 11 [2, 5, 151],
    LucasStep.mk 3023 5 [2, 1511],
    LucasStep.mk 127 3 [2, 3, 3, 7],
    LucasStep.mk 208150935158385979 2 [2, 3, 11, 43, 127, 3023, 191039911],
    LucasStep.mk 2624747550333869278416773953 7
      [2, 2, 2, 2, 2, 2, 3, 3, 1297, 16879, 208150935158385979],
    LucasStep.mk 373 2 [2, 2, 3, 31],
    LucasStep.mk 311 17 [2, 5, 31],
    LucasStep.mk 311245691 2 [2, 5, 7, 17, 29, 29, 311],
    LucasStep.mk 622491383 5 [2, 311245691],
    LucasStep.mk 1201 11 [2, 2, 2, 2, 3, 5, 5],
    LucasStep.mk 229 6 [2, 2, 3, 19],
    LucasStep.mk 9350987 2 [2, 17, 229, 1201],
    LucasStep.mk 187019741 2 [2, 2, 5, 9350987],
    LucasStep.mk 115792089210356248762697446949407573529996955224135760342422259061068512044369 7
      [2, 2, 2, 2, 3, 71, 131, 373, 3407, 17449, 38189, 187019741, 622491383, 1002328039319,
      2624747550333869278416773953] ]

end Whibox

namespace Whibox

/-! ## The driver: what it prints -/

theorem printf_02X_byte : ∀ b : Byte, printf_02X b.val = hexPair b := by
  decide!

theorem foldl_snoc_eq_append_map {α β : Type} (f : α → β) (l : List α) (acc : List β) :
    l.foldl (fun acc a => acc ++ [f a]) acc = acc ++ l.map f := by
  induction l generalizing acc with
  | nil => simp
  | cons a l ih => simp [List.foldl_cons, ih]

theorem main_loop_eq (sig : SigBuf) (ev : List Event) :
    main_loop sig ev
      = ev ++ (List.ofFn sig).map (fun b => Event.write (printf_02X b.val)) := by
  unfold main_loop
  rw [foldl_snoc_eq_append_map (fun i => Event.write (printf_02X (sig i).val))]
  rw [List.ofFn_eq_map, List.map_map]
  rfl

theorem main_of_returns (argc : Int) (argv : List String) (sig0 sig : SigBuf)
    (signer : Signer) (hret : signer sig0 main_hash = some sig) :
    main argc argv sig0 signer
      = { events := Event.call "ECDSA_256_sign" [List.ofFn sig0, List.ofFn main_hash]
            :: ((List.ofFn sig).map (fun b => Event.write (printf_02X b.val))
                ++ [Event.write ['\n']])
          exit := some 0 } := by
  simp [main, hret, main_loop_eq]

theorem main_of_diverges (argc : Int) (argv : List String) (sig0 : SigBuf)
    (signer : Signer) (hret : signer sig0 main_hash = none) :
    main argc argv sig0 signer
      = { events := [Event.call "ECDSA_256_sign" [List.ofFn sig0, List.ofFn main_hash]]
          exit := none } := by
  simp [main, hret]

theorem flatMap_output_writes (l : List Byte) :
    (l.map (fun b => Event.write (printf_02X b.val))).flatMap Event.output
      = l.flatMap hexPair := by
  induction l with
  | nil => rfl
  | cons b l ih =>
    rw [List.map_cons, List.flatMap_cons, List.flatMap_cons, ih]
    simp only [Event.output, printf_02X_byte]

theorem main_stdout (argc : Int) (argv : List String) (sig0 sig : SigBuf)
    (signer : Signer) (hret : signer sig0 main_hash = some sig) :
    (main argc argv sig0 signer).stdout = hexLine sig := by
  rw [main_of_returns argc argv sig0 sig signer hret]
  simp only [Run.stdout, hexLine, List.flatMap_cons, List.flatMap_append, Event.output,
    List.nil_append, flatMap_output_writes, List.flatMap_nil, List.append_nil]

theorem length_flatMap_hexPair (l : List Byte) :
    (l.flatMap hexPair).length = 2 * l.length := by
  induction l with
  | nil => rfl
  | cons b l ih =>
    simp only [List.flatMap_cons, List.length_append, ih, List.length_cons, hexPair,
      List.length_nil]
    omega

theorem getElem?_flatMap_hexPair (l : List Byte) (i : Nat) :
    (l.flatMap hexPair)[2 * i]? = l[i]?.map (fun b => hexAlphabet.getD (b.val / 16) '?')
    ∧ (l.flatMap hexPair)[2 * i + 1]?
        = l[i]?.map (fun b => hexAlphabet.getD (b.val % 16) '?') := by
  induction l generalizing i with
  | nil => simp
  | cons b l ih =>
    cases i with
    | zero => simp [List.flatMap_cons, hexPair]
    | succ i =>
      have h1 : 2 * (i + 1) = 2 * i + 2 := by omega
      have h2 : 2 * i + 2 + 1 = (2 * i + 1) + 2 := by omega
      rw [h1, h2]
      simpa [List.flatMap_cons, hexPair] using ih i

theorem hexAlphabet_getD_mem : ∀ d : Fin 16, hexAlphabet.getD d.val '?' ∈ hexAlphabet := by
  decide

theorem mem_flatMap_hexPair (l : List Byte) (c : Char) (h : c ∈ l.flatMap hexPair) :
    c ∈ hexAlphabet := by
  obtain ⟨b, -, hc⟩ := List.mem_flatMap.mp h
  simp only [hexPair, List.mem_cons, List.mem_singleton, List.not_mem_nil, or_false] at hc
  rcases hc with rfl | rfl
  · exact hexAlphabet_getD_mem ⟨b.val / 16, by omega⟩
  · exact hexAlphabet_getD_mem ⟨b.val % 16, by omega⟩

/-- C1: when the call of `ECDSA_256_sign` returns with the buffer holding
`sig`, `main` writes exactly 129 characters: for `i = 0..63` in increasing
order the two upper-case hexadecimal digits of `sig[i]`, high nibble first,
all of them among `0-9A-F`, then one newline and nothing else. -/
theorem C1_main_prints_hex_line (argc : Int) (argv : List String) (sig0 sig : SigBuf)
    (signer : Signer) (hret : signer sig0 main_hash = some sig) :
    (main argc argv sig0 signer).stdout = hexLine sig
    ∧ (main argc argv sig0 signer).stdout.length = 129
    ∧ (∀ i : Fin 64,
        (main argc argv sig0 signer).stdout[2 * i.val]?
            = some (hexAlphabet.getD ((sig i).val / 16) '?')
        ∧ (main argc argv sig0 signer).stdout[2 * i.val + 1]?
            = some (hexAlphabet.getD ((sig i).val % 16) '?'))
    ∧ (∀ c ∈ (main argc argv sig0 signer).stdout.take 128, c ∈ hexAlphabet)
    ∧ (main argc argv sig0 signer).stdout.drop 128 = ['\n'] := by
  have hlen : ((List.ofFn sig).flatMap hexPair).length = 128 := by
    rw [length_flatMap_hexPair, List.length_ofFn]
  rw [main_stdout argc argv sig0 sig signer hret]
  refine ⟨rfl, ?_, ?_, ?_, ?_⟩
  · rw [hexLine, List.length_append, hlen]
    rfl
  · intro i
    have hi := getElem?_flatMap_hexPair (List.ofFn sig) i.val
    have hget : (List.ofFn sig)[i.val]? = some (sig i) := by
      rw [List.getElem?_eq_getElem (by rw [List.length_ofFn]; exact i.isLt),
        List.getElem_ofFn]
    rw [hget] at hi
    have hlt := i.isLt
    unfold hexLine
    rw [List.getElem?_append_left (by omega), List.getElem?_append_left (by omega)]
    exact hi
  · intro c hc
    unfold hexLine at hc
    rw [List.take_left' hlen] at hc
    exact mem_flatMap_hexPair _ c hc
  · unfold hexLine
    rw [List.drop_left' hlen]

/-- Witness for C1: a signer that fills the buffer with `0x5A`. -/
theorem C1_witness :
    fillSigner 0x5A zeroSig main_hash = some (fun _ => 0x5A)
    ∧ (main 1 ["main_a"] zeroSig (fillSigner 0x5A)).stdout = hexLine (fun _ => 0x5A)
    ∧ (main 1 ["main_a"] zeroSig (fillSigner 0x5A)).stdout.length = 129 :=
  ⟨rfl,
    (C1_main_prints_hex_line 1 ["main_a"] zeroSig (fun _ => 0x5A) (fillSigner 0x5A) rfl).1,
    (C1_main_prints_hex_line 1 ["main_a"] zeroSig (fun _ => 0x5A) (fillSigner 0x5A) rfl).2.1⟩

/-! ## The driver: the call of the signer, the exit code, the command line -/

theorem ofFn_main_hash : List.ofFn main_hash = List.replicate 32 (0xAA : Byte) := by
  decide

theorem writes_only (l : List Byte) :
    ∀ e ∈ l.map (fun b => Event.write (printf_02X b.val)) ++ [Event.write ['\n']],
      ∃ text, e = Event.write text := by
  intro e he
  rcases List.mem_append.mp he with h | h
  · obtain ⟨b, -, rfl⟩ := List.mem_map.mp h
    exact ⟨_, rfl⟩
  · rw [List.mem_singleton] at h
    exact ⟨_, h⟩

theorem main_events_shape (argc : Int) (argv : List String) (sig0 : SigBuf)
    (signer : Signer) :
    ∃ rest : List Event,
      (main argc argv sig0 signer).events
          = Event.call "ECDSA_256_sign" [List.ofFn sig0, List.ofFn main_hash] :: rest
      ∧ ∀ e ∈ rest, ∃ text, e = Event.write text := by
  cases hret : signer sig0 main_hash with
  | none =>
    rw [main_of_diverges argc argv sig0 signer hret]
    exact ⟨[], rfl, by simp⟩
  | some sig =>
    rw [main_of_returns argc argv sig0 sig signer hret]
    exact ⟨_, rfl, writes_only _⟩

theorem main_callsOf (argc : Int) (argv : List String) (sig0 : SigBuf) (signer : Signer) :
    (main argc argv sig0 signer).callsOf "ECDSA_256_sign"
      = [[List.ofFn sig0, List.ofFn main_hash]] := by
  have hfilter : ∀ (l : List Event), (∀ e ∈ l, ∃ text, e = Event.write text) →
      l.filterMap (fun e =>
        match e with
        | Event.call c args => if c = "ECDSA_256_sign" then some args else none
        | Event.write _ => none) = [] := by
    intro l hl
    induction l with
    | nil => rfl
    | cons e l ih =>
      obtain ⟨text, rfl⟩ := hl e (List.mem_cons_self _ _)
      rw [List.filterMap_cons]
      exact ih (fun e he => hl e (List.mem_cons_of_mem _ he))
  obtain ⟨rest, hev, hrest⟩ := main_events_shape argc argv sig0 signer
  simp only [Run.callsOf, hev, List.filterMap_cons, if_true]
  rw [hfilter rest hrest]

/-- C3: on every run, whatever the command line, the first action of `main`
is the call of `ECDSA_256_sign`, every later action is a `printf`, so the
signer is called exactly once and before anything is printed; the digest
handed over has exactly 32 bytes, each equal to `0xAA`. -/
theorem C3_signer_called_once_with_fixed_digest (argc : Int) (argv : List String)
    (sig0 : SigBuf) (signer : Signer) :
    (∃ rest : List Event,
        (main argc argv sig0 signer).events
            = Event.call "ECDSA_256_sign" [List.ofFn sig0, List.replicate 32 0xAA] :: rest
        ∧ ∀ e ∈ rest, ∃ text, e = Event.write text)
    ∧ (main argc argv sig0 signer).callsOf "ECDSA_256_sign"
        = [[List.ofFn sig0, List.replicate 32 0xAA]]
    ∧ ((main argc argv sig0 signer).callsOf "ECDSA_256_sign").length = 1
    ∧ (List.ofFn main_hash).length = 32
    ∧ ∀ i : Fin 32, main_hash i = 0xAA := by
  have h1 := main_events_shape argc argv sig0 signer
  have h2 := main_callsOf argc argv sig0 signer
  rw [ofFn_main_hash] at h1 h2
  exact ⟨h1, h2, by rw [h2]; rfl, by rw [List.length_ofFn], by decide⟩

/-- C4: whenever the call of the signer returns, whatever it left in the
buffer, `main` returns 0 and what it printed is the hexadecimal line of the
buffer (only hexadecimal digits and one newline: no error message); and no
signer makes `main` return a code other than 0. -/
theorem C4_exit_code_always_zero (argc : Int) (argv : List String) (sig0 sig : SigBuf)
    (signer : Signer) (hret : signer sig0 main_hash = some sig) :
    (main argc argv sig0 signer).exit = some 0
    ∧ (main argc argv sig0 signer).stdout = hexLine sig
    ∧ (∀ c ∈ (main argc argv sig0 signer).stdout, c ∈ hexAlphabet ∨ c = '\n')
    ∧ ∀ (signer' : Signer) (code : Int),
        (main argc argv sig0 signer').exit = some code → code = 0 := by
  refine ⟨?_, main_stdout argc argv sig0 sig signer hret, ?_, ?_⟩
  · rw [main_of_returns argc argv sig0 sig signer hret]
  · rw [main_stdout argc argv sig0 sig signer hret]
    intro c hc
    rcases List.mem_append.mp hc with h | h
    · exact Or.inl (mem_flatMap_hexPair _ c h)
    · exact Or.inr (List.mem_singleton.mp h)
  · intro signer' code hcode
    cases hret' : signer' sig0 main_hash with
    | none =>
      rw [main_of_diverges argc argv sig0 signer' hret'] at hcode
      cases hcode
    | some sig' =>
      rw [main_of_returns argc argv sig0 sig' signer' hret'] at hcode
      exact (Option.some.inj hcode).symm

/-- Witness for C4: a signer that returns without writing anything. -/
theorem C4_witness :
    idleSigner zeroSig main_hash = some zeroSig
    ∧ (main 3 ["main_a", "--fail", "x"] zeroSig idleSigner).exit = some 0 :=
  ⟨rfl, (C4_exit_code_always_zero 3 ["main_a", "--fail", "x"] zeroSig zeroSig idleSigner rfl).1⟩

/-- C9: the command line has no influence: for any two argument vectors,
with the same signer (and the same initial content of the uninitialised
buffer), the two runs of `main` perform the same actions, hence pass the same
digest, print the same output and return the same exit code. -/
theorem C9_command_line_ignored (argc argc' : Int) (argv argv' : List String)
    (sig0 : SigBuf) (signer : Signer) :
    main argc argv sig0 signer = main argc' argv' sig0 signer
    ∧ (main argc argv sig0 signer).callsOf "ECDSA_256_sign"
        = (main argc' argv' sig0 signer).callsOf "ECDSA_256_sign"
    ∧ (main argc argv sig0 signer).stdout = (main argc' argv' sig0 signer).stdout
    ∧ (main argc argv sig0 signer).exit = (main argc' argv' sig0 signer).exit := by
  have h : main argc argv sig0 signer = main argc' argv' sig0 signer := rfl
  exact ⟨h, by rw [h], by rw [h], by rw [h]⟩

/-! ## The driver: the boundary with the signer -/

/-- C5 (as stated) fails: the declared signer has two parameters, the call
of the driver hands over two buffers (output buffer and digest) and no
private key, and two signers that are handed exactly the same arguments make
the driver print different lines, so the printed signature is not a function
of anything the driver passes besides the digest. -/
theorem C5_counterexample :
    ECDSA_256_sign_decl.params.length = 2
    ∧ (main 1 ["main_a"] zeroSig (fillSigner 1)).callsOf "ECDSA_256_sign"
        = [[List.replicate 64 0, List.replicate 32 0xAA]]
    ∧ ¬ (ECDSA_256_sign_decl.params.length = 3
          ∧ ∃ out digest key, (main 1 ["main_a"] zeroSig (fillSigner 1)).callsOf "ECDSA_256_sign"
              = [[out, digest, key]])
    ∧ (main 1 ["main_a"] zeroSig (fillSigner 1)).callsOf "ECDSA_256_sign"
        = (main 1 ["main_a"] zeroSig (fillSigner 2)).callsOf "ECDSA_256_sign"
    ∧ (main 1 ["main_a"] zeroSig (fillSigner 1)).stdout
        ≠ (main 1 ["main_a"] zeroSig (fillSigner 2)).stdout := by
  refine ⟨rfl, by decide, ?_, by decide, by decide⟩
  rintro ⟨h, -⟩
  exact absurd h (by decide)

/-- C5 (amended): the signing function at the boundary with the driver takes
two inputs, the 64-byte output buffer and the 32-byte digest; the driver
passes exactly these two and no private key, and the run of `main` (so the
line it prints) is determined by what the linked signer answers to the
initial buffer and the digest. -/
theorem C5_signer_boundary_two_inputs (argc : Int) (argv : List String) (sig0 : SigBuf)
    (signer : Signer) :
    ECDSA_256_sign_decl.params
        = [(CParam.ucharArray 64, "sig"), (CParam.constUcharArray 32, "hash")]
    ∧ (main argc argv sig0 signer).callsOf ECDSA_256_sign_decl.name
        = [[List.ofFn sig0, List.ofFn main_hash]]
    ∧ ∀ signer' : Signer, signer' sig0 main_hash = signer sig0 main_hash →
        main argc argv sig0 signer' = main argc argv sig0 signer := by
  refine ⟨rfl, ?_, ?_⟩
  · exact main_callsOf argc argv sig0 signer
  · intro signer' h
    simp only [main, h]

/-! ## The driver: the printed line can be read back -/

theorem hexDigitValue_hexPair : ∀ b : Byte,
    hexDigitValue (hexAlphabet.getD (b.val / 16) '?') = some (b.val / 16)
    ∧ hexDigitValue (hexAlphabet.getD (b.val % 16) '?') = some (b.val % 16)
    ∧ (Fin.ofNat (16 * (b.val / 16) + b.val % 16) : Byte) = b := by
  decide!

theorem flatMap_hexPair_cons (b : Byte) (l : List Byte) :
    (b :: l).flatMap hexPair
      = hexAlphabet.getD (b.val / 16) '?' :: hexAlphabet.getD (b.val % 16) '?'
          :: l.flatMap hexPair := by
  rw [List.flatMap_cons]
  rfl

theorem decodeHexPairs_flatMap (l : List Byte) :
    decodeHexPairs (l.flatMap hexPair) = some l := by
  induction l with
  | nil => rfl
  | cons b l ih =>
    obtain ⟨h1, h2, h3⟩ := hexDigitValue_hexPair b
    rw [flatMap_hexPair_cons, decodeHexPairs, h1, h2, ih]
    simp only [h3]

theorem readHexFrom_flatMap (l : List Byte) (acc : Nat) :
    readHexFrom acc (l.flatMap hexPair)
      = some (l.foldl (fun acc b => 256 * acc + b.val) acc) := by
  induction l generalizing acc with
  | nil => rfl
  | cons b l ih =>
    obtain ⟨h1, h2, -⟩ := hexDigitValue_hexPair b
    rw [flatMap_hexPair_cons, readHexFrom, h1]
    simp only
    rw [readHexFrom, h2]
    simp only
    rw [ih, List.foldl_cons]
    have hb : 16 * (16 * acc + b.val / 16) + b.val % 16 = 256 * acc + b.val := by omega
    rw [hb]

theorem take_flatMap_hexPair (l : List Byte) (k : Nat) :
    (l.flatMap hexPair).take (2 * k) = (l.take k).flatMap hexPair := by
  induction l generalizing k with
  | nil => simp
  | cons b l ih =>
    cases k with
    | zero => simp
    | succ k =>
      have hk : 2 * (k + 1) = 2 * k + 1 + 1 := by omega
      rw [List.take_succ_cons, flatMap_hexPair_cons, flatMap_hexPair_cons, hk,
        List.take_succ_cons, List.take_succ_cons, ih]

theorem drop_flatMap_hexPair (l : List Byte) (k : Nat) :
    (l.flatMap hexPair).drop (2 * k) = (l.drop k).flatMap hexPair := by
  induction l generalizing k with
  | nil => simp
  | cons b l ih =>
    cases k with
    | zero => simp
    | succ k =>
      have hk : 2 * (k + 1) = 2 * k + 1 + 1 := by omega
      rw [List.drop_succ_cons, flatMap_hexPair_cons, hk,
        List.drop_succ_cons, List.drop_succ_cons, ih]

theorem bigEndian_foldl (n v : Nat) :
    (List.ofFn (fun i : Fin n => (Fin.ofNat (v / 256 ^ (n - 1 - i.val)) : Byte))).foldl
        (fun acc b => 256 * acc + b.val) 0 = v % 256 ^ n := by
  induction n generalizing v with
  | zero => simp [Nat.mod_one]
  | succ n ih =>
    rw [List.ofFn_succ', List.concat_eq_append, List.foldl_concat]
    have hcast : (fun i : Fin n =>
          (Fin.ofNat (v / 256 ^ (n + 1 - 1 - (Fin.castSucc i).val)) : Byte))
        = fun i : Fin n => (Fin.ofNat (v / 256 / 256 ^ (n - 1 - i.val)) : Byte) := by
      funext i
      have hi := i.isLt
      have he : n + 1 - 1 - (Fin.castSucc i).val = (n - 1 - i.val) + 1 := by
        simp only [Fin.coe_castSucc]
        omega
      rw [he, Nat.div_div_eq_div_mul, pow_succ, Nat.mul_comm]
    rw [hcast, ih (v / 256)]
    have hlast : ((Fin.ofNat (v / 256 ^ (n + 1 - 1 - (Fin.last n).val)) : Byte)).val
        = v % 256 := by
      simp [Fin.ofNat]
    rw [hlast]
    have h1 : v % 256 ^ (n + 1) = 256 * (v / 256 % 256 ^ n) + v % 256 := by
      rw [pow_succ, Nat.mul_comm (256 ^ n) 256, Nat.mod_mul]
      omega
    omega

theorem ofFn_rsBuffer (r s : Nat) :
    List.ofFn (rsBuffer r s)
      = List.ofFn (fun i : Fin 32 => (Fin.ofNat (r / 256 ^ (32 - 1 - i.val)) : Byte))
        ++ List.ofFn (fun i : Fin 32 => (Fin.ofNat (s / 256 ^ (32 - 1 - i.val)) : Byte)) := by
  have h := @List.ofFn_add Byte 32 32 (rsBuffer r s)
  have h1 : (fun i : Fin 32 => rsBuffer r s (Fin.castAdd 32 i))
      = fun i : Fin 32 => (Fin.ofNat (r / 256 ^ (32 - 1 - i.val)) : Byte) := by
    funext i
    have hi := i.isLt
    simp [rsBuffer, bigEndianByte, hi]
  have h2 : (fun i : Fin 32 => rsBuffer r s (Fin.natAdd 32 i))
      = fun i : Fin 32 => (Fin.ofNat (s / 256 ^ (32 - 1 - i.val)) : Byte) := by
    funext i
    simp [rsBuffer, bigEndianByte]
  rw [h, h1, h2]

theorem readHex_hexLine_rsBuffer (r s : Nat) (hr : r < 2 ^ 256) (hs : s < 2 ^ 256) :
    readHex ((hexLine (rsBuffer r s)).take 64) = some r
    ∧ readHex (((hexLine (rsBuffer r s)).drop 64).take 64) = some s := by
  have hlenA : (List.ofFn (fun i : Fin 32 =>
      (Fin.ofNat (r / 256 ^ (32 - 1 - i.val)) : Byte))).length = 32 := List.length_ofFn _
  have hlenB : (List.ofFn (fun i : Fin 32 =>
      (Fin.ofNat (s / 256 ^ (32 - 1 - i.val)) : Byte))).length = 32 := List.length_ofFn _
  have hpow : (256 : Nat) ^ 32 = 2 ^ 256 := by norm_num
  have h64 : (64 : Nat) = 2 * 32 := rfl
  unfold hexLine readHex
  rw [ofFn_rsBuffer]
  constructor
  · rw [List.take_append_of_le_length
        (by rw [length_flatMap_hexPair, List.length_append, hlenA, hlenB]; omega),
      h64, take_flatMap_hexPair, List.take_left' hlenA, readHexFrom_flatMap,
      bigEndian_foldl 32 r, hpow, Nat.mod_eq_of_lt hr]
  · rw [List.drop_append_of_le_length
        (by rw [length_flatMap_hexPair, List.length_append, hlenA, hlenB]; omega),
      h64, drop_flatMap_hexPair, List.drop_left' hlenA,
      List.take_left' (by rw [length_flatMap_hexPair, hlenB]), readHexFrom_flatMap,
      bigEndian_foldl 32 s, hpow, Nat.mod_eq_of_lt hs]

/-- C2: for `r, s < 2^256`, when the signer returns with the buffer holding
the 32-byte big-endian encoding of `r` followed by that of `s`, the first 64
characters of the line `main` prints, read as a base-16 numeral, are `r` and
the next 64 are `s`. -/
theorem C2_line_layout_r_then_s (argc : Int) (argv : List String) (sig0 : SigBuf)
    (signer : Signer) (r s : Nat) (hr : r < 2 ^ 256) (hs : s < 2 ^ 256)
    (hret : signer sig0 main_hash = some (rsBuffer r s)) :
    readHex ((main argc argv sig0 signer).stdout.take 64) = some r
    ∧ readHex (((main argc argv sig0 signer).stdout.drop 64).take 64) = some s := by
  rw [main_stdout argc argv sig0 (rsBuffer r s) signer hret]
  exact readHex_hexLine_rsBuffer r s hr hs

/-- Witness for C2: `r = 2^255 + 5`, `s = 0xABCDEF`. -/
theorem C2_witness :
    2 ^ 255 + 5 < 2 ^ 256 ∧ 0xABCDEF < 2 ^ 256
    ∧ readHex ((main 1 ["main_a"] zeroSig
        (constSigner (rsBuffer (2 ^ 255 + 5) 0xABCDEF))).stdout.take 64) = some (2 ^ 255 + 5)
    ∧ readHex (((main 1 ["main_a"] zeroSig
        (constSigner (rsBuffer (2 ^ 255 + 5) 0xABCDEF))).stdout.drop 64).take 64)
        = some 0xABCDEF :=
  ⟨by norm_num, by norm_num,
    C2_line_layout_r_then_s 1 ["main_a"] zeroSig (constSigner (rsBuffer (2 ^ 255 + 5) 0xABCDEF))
      (2 ^ 255 + 5) 0xABCDEF (by norm_num) (by norm_num) rfl⟩

/-- C10: when the signer returns with the buffer holding `sig`, dropping the
final newline of the printed line and decoding each pair of hexadecimal
digits as a byte gives back the 64 bytes of `sig` in order; hence a run whose
buffer differs from `sig` in some byte prints a different line. -/
theorem C10_line_determines_signature (argc : Int) (argv : List String) (sig0 sig : SigBuf)
    (signer : Signer) (hret : signer sig0 main_hash = some sig) :
    (main argc argv sig0 signer).stdout.getLast? = some '\n'
    ∧ decodeHexPairs (main argc argv sig0 signer).stdout.dropLast = some (List.ofFn sig)
    ∧ ∀ (argc' : Int) (argv' : List String) (sig0' sig' : SigBuf) (signer' : Signer),
        signer' sig0' main_hash = some sig' → sig' ≠ sig →
        (main argc' argv' sig0' signer').stdout ≠ (main argc argv sig0 signer).stdout := by
  have hdec : ∀ t : SigBuf, decodeHexPairs (hexLine t).dropLast = some (List.ofFn t) := by
    intro t
    unfold hexLine
    rw [List.dropLast_concat, decodeHexPairs_flatMap]
  rw [main_stdout argc argv sig0 sig signer hret]
  refine ⟨?_, hdec sig, ?_⟩
  · unfold hexLine
    rw [List.getLast?_concat]
  · intro argc' argv' sig0' sig' signer' hret' hne heq
    rw [main_stdout argc' argv' sig0' sig' signer' hret'] at heq
    have h := hdec sig'
    rw [heq, hdec sig] at h
    exact hne (List.ofFn_injective (Option.some.inj h)).symm

/-- Witness for C10: the buffer filled with `0xC3`. -/
theorem C10_witness :
    fillSigner 0xC3 zeroSig main_hash = some (fun _ => 0xC3)
    ∧ decodeHexPairs (main 1 ["main_a"] zeroSig (fillSigner 0xC3)).stdout.dropLast
        = some (List.replicate 64 0xC3) :=
  ⟨rfl,
    (C10_line_determines_signature 1 ["main_a"] zeroSig (fun _ => 0xC3) (fillSigner 0xC3)
      rfl).2.1.trans (by decide)⟩

/-! ## The signing primitive: arithmetic -/

theorem powModAux_eq (m a : Nat) : ∀ (fuel e : Nat), e ≤ fuel → powModAux m fuel a e = a ^ e % m := by
  intro fuel
  induction fuel with
  | zero =>
    intro e he
    have : e = 0 := by omega
    subst this
    simp [powModAux]
  | succ fuel ih =>
    intro e he
    rw [powModAux]
    by_cases h0 : e = 0
    · simp [h0]
    · rw [if_neg h0]
      have hih := ih (e / 2) (by omega)
      simp only [hih]
      have hsq : a ^ (e / 2) % m * (a ^ (e / 2) % m) % m = a ^ (2 * (e / 2)) % m := by
        rw [← Nat.mul_mod, ← pow_add, two_mul]
      by_cases hodd : e % 2 = 1
      · rw [if_pos hodd, hsq]
        have he2 : e = 2 * (e / 2) + 1 := by omega
        conv_rhs => rw [he2, pow_succ]
        rw [Nat.mul_mod (a ^ (2 * (e / 2))) a m, Nat.mul_mod (a ^ (2 * (e / 2)) % m) a m,
          Nat.mod_mod]
      · rw [if_neg hodd, hsq]
        have he2 : e = 2 * (e / 2) := by omega
        conv_rhs => rw [he2]

theorem powMod_eq (m a e : Nat) : powMod m a e = a ^ e % m :=
  powModAux_eq m a e e (le_refl e)

section
variable (c : Curve) [hp : Fact (Nat.Prime c.p)]

theorem cast_fieldAdd (a b : Nat) : ((fieldAdd c a b : ℕ) : ZMod c.p) = (a : ZMod c.p) + b := by
  simp [fieldAdd]

theorem cast_fieldMul (a b : Nat) : ((fieldMul c a b : ℕ) : ZMod c.p) = (a : ZMod c.p) * b := by
  simp [fieldMul]

theorem cast_fieldSub (a b : Nat) : ((fieldSub c a b : ℕ) : ZMod c.p) = (a : ZMod c.p) - b := by
  have hb : b % c.p ≤ c.p := (Nat.mod_lt b hp.out.pos).le
  simp [fieldSub, Nat.cast_sub hb, sub_eq_add_neg]

theorem fieldAdd_lt (a b : Nat) : fieldAdd c a b < c.p := Nat.mod_lt _ hp.out.pos
theorem fieldSub_lt (a b : Nat) : fieldSub c a b < c.p := Nat.mod_lt _ hp.out.pos
theorem fieldMul_lt (a b : Nat) : fieldMul c a b < c.p := Nat.mod_lt _ hp.out.pos

theorem fieldInverse_spec (a : Nat) (ha : (a : ZMod c.p) ≠ 0) :
    ∃ v, fieldInverse c a = Except.ok v ∧ v < c.p ∧ (v : ZMod c.p) = (a : ZMod c.p)⁻¹ := by
  have hmod : a % c.p ≠ 0 := by
    intro h
    apply ha
    rw [ZMod.natCast_zmod_eq_zero_iff_dvd]
    exact Nat.dvd_of_mod_eq_zero h
  refine ⟨powMod c.p a (c.p - 2), by simp [fieldInverse, hmod], ?_, ?_⟩
  · rw [powMod_eq]
    exact Nat.mod_lt _ hp.out.pos
  · rw [powMod_eq, ZMod.natCast_mod, Nat.cast_pow]
    have h1 : (a : ZMod c.p) ^ (c.p - 1) = 1 := ZMod.pow_card_sub_one_eq_one ha
    have h2 : c.p - 1 = (c.p - 2) + 1 := by
      have := hp.out.two_le
      omega
    rw [h2, pow_succ] at h1
    exact eq_inv_of_mul_eq_one_left h1

theorem cast_inj_of_lt (a b : Nat) (ha : a < c.p) (hb : b < c.p)
    (h : (a : ZMod c.p) = (b : ZMod c.p)) : a = b := by
  have := (ZMod.natCast_eq_natCast_iff' a b c.p).mp h
  rwa [Nat.mod_eq_of_lt ha, Nat.mod_eq_of_lt hb] at this

theorem cast_ne_zero_of_lt (a : Nat) (ha : a < c.p) (h0 : a ≠ 0) : (a : ZMod c.p) ≠ 0 := by
  intro h
  apply h0
  apply cast_inj_of_lt c a 0 ha hp.out.pos
  simpa using h

theorem two_ne_zero_of_gt (hgt : 3 < c.p) : (2 : ZMod c.p) ≠ 0 := by
  have h := cast_ne_zero_of_lt c 2 (by omega) (by decide)
  simpa using h

theorem equation_iff_curveW (X Y : ZMod c.p) :
    (curveW c).Equation X Y ↔ Y * Y = X * X * X - 3 * X + (c.b : ZMod c.p) := by
  rw [WeierstrassCurve.Affine.equation_iff]
  simp only [curveW]
  constructor
  · intro h
    linear_combination h
  · intro h
    linear_combination h

theorem onCurve_iff_equation (x y : Nat) :
    onCurve c (CurvePoint.affine x y) = true ↔ (curveW c).Equation (x : ZMod c.p) y := by
  rw [equation_iff_curveW]
  simp only [onCurve, beq_iff_eq]
  constructor
  · intro h
    have := congrArg (Nat.cast : ℕ → ZMod c.p) h
    simpa [cast_fieldAdd, cast_fieldMul, cast_fieldSub] using this
  · intro h
    apply cast_inj_of_lt c _ _ (fieldMul_lt c _ _) (fieldAdd_lt c _ _)
    simpa [cast_fieldAdd, cast_fieldMul, cast_fieldSub] using h

theorem nonsingular_of_equation (hgt : 3 < c.p) (hdisc : (27 * c.b * c.b) % c.p ≠ 108 % c.p)
    {X Y : ZMod c.p} (h : (curveW c).Equation X Y) : (curveW c).Nonsingular X Y := by
  refine WeierstrassCurve.Affine.nonsingular_of_Δ_ne_zero (curveW c) h ?_
  have h2 := two_ne_zero_of_gt c hgt
  have hd : ((27 * c.b * c.b : ℕ) : ZMod c.p) ≠ ((108 : ℕ) : ZMod c.p) := by
    intro hcontra
    exact hdisc ((ZMod.natCast_eq_natCast_iff' _ _ _).mp hcontra)
  intro hΔ
  apply hd
  have hΔ2 : (curveW c).Δ = -(2 : ZMod c.p) ^ 4 * (27 * c.b * c.b - 108) := by
    simp only [WeierstrassCurve.Δ, WeierstrassCurve.b₂, WeierstrassCurve.b₄,
      WeierstrassCurve.b₆, WeierstrassCurve.b₈, curveW]
    ring
  rw [hΔ2] at hΔ
  have h16 : -(2 : ZMod c.p) ^ 4 ≠ 0 := neg_ne_zero.mpr (pow_ne_zero 4 h2)
  have := (mul_eq_zero.mp hΔ).resolve_left h16
  push_cast
  linear_combination this

theorem represents_affine (x y : Nat) (hx : x < c.p) (hy : y < c.p) {X Y : ZMod c.p}
    (h : (curveW c).Nonsingular X Y) (ex : (x : ZMod c.p) = X) (ey : (y : ZMod c.p) = Y) :
    Represents c (CurvePoint.affine x y) (WeierstrassCurve.Affine.Point.some h) := by
  subst ex ey
  exact ⟨hx, hy, h, rfl⟩

theorem double_spec (hgt : 3 < c.p) (P : CurvePoint) (Q : (curveW c).Point)
    (hPQ : Represents c P Q) :
    ∃ R, double c P = Except.ok R ∧ Represents c R (Q + Q) := by
  cases P with
  | infinity =>
    have hQ : Q = 0 := hPQ
    subst hQ
    exact ⟨CurvePoint.infinity, rfl, by simp [Represents]⟩
  | affine x y =>
    obtain ⟨hx, hy, h, rfl⟩ := hPQ
    have h2 := two_ne_zero_of_gt c hgt
    by_cases hy0 : y = 0
    · refine ⟨CurvePoint.infinity, by simp [double, hy0], ?_⟩
      have hneg : (y : ZMod c.p) = (curveW c).negY (x : ZMod c.p) (y : ZMod c.p) := by
        simp [WeierstrassCurve.Affine.negY, curveW, hy0]
      rw [WeierstrassCurve.Affine.Point.add_self_of_Y_eq hneg]
      rfl
    · have hyz : (y : ZMod c.p) ≠ 0 := cast_ne_zero_of_lt c y hy hy0
      have h2y : ((fieldMul c 2 y : ℕ) : ZMod c.p) ≠ 0 := by
        rw [cast_fieldMul]
        push_cast
        exact mul_ne_zero h2 hyz
      obtain ⟨inv, hinv, -, hinvz⟩ := fieldInverse_spec c (fieldMul c 2 y) h2y
      have hne : (y : ZMod c.p) ≠ (curveW c).negY (x : ZMod c.p) (y : ZMod c.p) := by
        intro hcontra
        simp only [WeierstrassCurve.Affine.negY, curveW] at hcontra
        apply mul_ne_zero h2 hyz
        linear_combination hcontra
      refine ⟨_, by simp only [double, hy0, if_false, hinv]; rfl, ?_⟩
      rw [WeierstrassCurve.Affine.Point.add_self_of_Y_ne hne]
      have hslope : (curveW c).slope (x : ZMod c.p) x y y
          = ((fieldMul c (fieldMul c 3 (fieldSub c (fieldMul c x x) 1)) inv : ℕ) : ZMod c.p) := by
        rw [WeierstrassCurve.Affine.slope_of_Y_ne rfl hne]
        simp only [cast_fieldMul, cast_fieldSub, hinvz, WeierstrassCurve.Affine.negY, curveW]
        push_cast
        rw [div_eq_mul_inv]
        congr 1
        · ring
        · congr 1
          ring
      apply represents_affine c _ _ (fieldSub_lt c _ _) (fieldSub_lt c _ _)
      · rw [hslope]
        simp only [WeierstrassCurve.Affine.addX, cast_fieldSub, cast_fieldMul, curveW]
        ring
      · rw [hslope]
        simp only [WeierstrassCurve.Affine.addY, WeierstrassCurve.Affine.negAddY,
          WeierstrassCurve.Affine.negY, WeierstrassCurve.Affine.addX, cast_fieldSub,
          cast_fieldMul, curveW]
        ring

theorem add_spec (hgt : 3 < c.p) (P1 P2 : CurvePoint) (Q1 Q2 : (curveW c).Point)
    (h1 : Represents c P1 Q1) (h2 : Represents c P2 Q2) :
    ∃ R, add c P1 P2 = Except.ok R ∧ Represents c R (Q1 + Q2) := by
  cases P1 with
  | infinity =>
    have hQ : Q1 = 0 := h1
    subst hQ
    exact ⟨P2, by cases P2 <;> rfl, by rwa [zero_add]⟩
  | affine x1 y1 =>
    cases P2 with
    | infinity =>
      have hQ : Q2 = 0 := h2
      subst hQ
      exact ⟨CurvePoint.affine x1 y1, rfl, by rwa [add_zero]⟩
    | affine x2 y2 =>
      by_cases hx : x1 = x2
      · by_cases hy : y1 = y2
        · subst hx hy
          obtain ⟨hx1, hy1, hn1, rfl⟩ := h1
          obtain ⟨-, -, hn2, rfl⟩ := h2
          obtain ⟨R, hR, hrep⟩ := double_spec c hgt (CurvePoint.affine x1 y1)
            (WeierstrassCurve.Affine.Point.some hn1) ⟨hx1, hy1, hn1, rfl⟩
          exact ⟨R, by simpa [add] using hR, hrep⟩
        · subst hx
          obtain ⟨hx1, hy1, hn1, rfl⟩ := h1
          obtain ⟨-, hy2, hn2, rfl⟩ := h2
          refine ⟨CurvePoint.infinity, by simp [add, hy], ?_⟩
          have hyz : (y1 : ZMod c.p) ≠ (y2 : ZMod c.p) :=
            fun hcontra => hy (cast_inj_of_lt c y1 y2 hy1 hy2 hcontra)
          have hneg := (WeierstrassCurve.Affine.Y_eq_of_X_eq hn1.left hn2.left rfl).resolve_left hyz
          rw [WeierstrassCurve.Affine.Point.add_of_Y_eq rfl hneg]
          rfl
      · obtain ⟨hx1, hy1, hn1, rfl⟩ := h1
        obtain ⟨hx2, hy2, hn2, rfl⟩ := h2
        have hxz : (x1 : ZMod c.p) ≠ (x2 : ZMod c.p) :=
          fun hcontra => hx (cast_inj_of_lt c x1 x2 hx1 hx2 hcontra)
        have hd : ((fieldSub c x2 x1 : ℕ) : ZMod c.p) ≠ 0 := by
          rw [cast_fieldSub]
          exact sub_ne_zero.mpr (Ne.symm hxz)
        obtain ⟨inv, hinv, -, hinvz⟩ := fieldInverse_spec c (fieldSub c x2 x1) hd
        refine ⟨_, by simp only [add, hx, if_false, hinv]; rfl, ?_⟩
        rw [WeierstrassCurve.Affine.Point.add_of_X_ne hxz]
        have hslope : (curveW c).slope (x1 : ZMod c.p) x2 y1 y2
            = ((fieldMul c (fieldSub c y2 y1) inv : ℕ) : ZMod c.p) := by
          rw [WeierstrassCurve.Affine.slope_of_X_ne hxz]
          simp only [cast_fieldMul, cast_fieldSub, hinvz]
          rw [div_eq_mul_inv, ← neg_sub (y2 : ZMod c.p) y1, ← neg_sub (x2 : ZMod c.p) x1,
            inv_neg, neg_mul_neg]
        apply represents_affine c _ _ (fieldSub_lt c _ _) (fieldSub_lt c _ _)
        · rw [hslope]
          simp only [WeierstrassCurve.Affine.addX, cast_fieldSub, cast_fieldMul, curveW]
          ring
        · rw [hslope]
          simp only [WeierstrassCurve.Affine.addY, WeierstrassCurve.Affine.negAddY,
            WeierstrassCurve.Affine.negY, WeierstrassCurve.Affine.addX, cast_fieldSub,
            cast_fieldMul, curveW]
          ring

theorem pointMulAux_spec (hgt : 3 < c.p) (P : CurvePoint) (Q : (curveW c).Point)
    (hPQ : Represents c P Q) :
    ∀ (fuel k : Nat), k ≤ fuel →
      ∃ R, pointMulAux c P fuel k = Except.ok R ∧ Represents c R (k • Q) := by
  intro fuel
  induction fuel with
  | zero =>
    intro k hk
    have : k = 0 := by omega
    subst this
    exact ⟨CurvePoint.infinity, rfl, zero_nsmul Q⟩
  | succ fuel ih =>
    intro k hk
    by_cases h0 : k = 0
    · subst h0
      exact ⟨CurvePoint.infinity, by simp [pointMulAux], zero_nsmul Q⟩
    · obtain ⟨H, hH, hHrep⟩ := ih (k / 2) (by omega)
      obtain ⟨D, hD, hDrep⟩ := double_spec c hgt H _ hHrep
      by_cases hodd : k % 2 = 1
      · obtain ⟨R, hR, hRrep⟩ := add_spec c hgt D P _ Q hDrep hPQ
        refine ⟨R, by simp only [pointMulAux, h0, if_false, hH, hD, hodd, if_true, hR], ?_⟩
        have hk2 : k = k / 2 + k / 2 + 1 := by omega
        have : k • Q = (k / 2) • Q + (k / 2) • Q + Q := by
          conv_lhs => rw [hk2]
          rw [add_nsmul, add_nsmul, one_nsmul]
        rwa [this]
      · refine ⟨D, by simp only [pointMulAux, h0, if_false, hH, hD, hodd], ?_⟩
        have hk2 : k = k / 2 + k / 2 := by omega
        have : k • Q = (k / 2) • Q + (k / 2) • Q := by
          conv_lhs => rw [hk2]
          rw [add_nsmul]
        rwa [this]

theorem pointMul_spec (hgt : 3 < c.p) (k : Nat) (P : CurvePoint) (Q : (curveW c).Point)
    (hPQ : Represents c P Q) :
    ∃ R, pointMul c k P = Except.ok R ∧ Represents c R (k • Q) :=
  pointMulAux_spec c hgt P Q hPQ k k (le_refl k)

theorem represents_unique (P1 P2 : CurvePoint) (Q : (curveW c).Point)
    (h1 : Represents c P1 Q) (h2 : Represents c P2 Q) : P1 = P2 := by
  cases P1 with
  | infinity =>
    cases P2 with
    | infinity => rfl
    | affine x2 y2 =>
      have hQ : Q = 0 := h1
      obtain ⟨-, -, hn, hq⟩ := h2
      rw [hQ] at hq
      exact absurd hq.symm (WeierstrassCurve.Affine.Point.some_ne_zero hn)
  | affine x1 y1 =>
    cases P2 with
    | infinity =>
      have hQ : Q = 0 := h2
      obtain ⟨-, -, hn, hq⟩ := h1
      rw [hQ] at hq
      exact absurd hq.symm (WeierstrassCurve.Affine.Point.some_ne_zero hn)
    | affine x2 y2 =>
      obtain ⟨hx1, hy1, hn1, hq1⟩ := h1
      obtain ⟨hx2, hy2, hn2, hq2⟩ := h2
      rw [hq1] at hq2
      injection hq2 with hx hy
      rw [cast_inj_of_lt c x1 x2 hx1 hx2 hx, cast_inj_of_lt c y1 y2 hy1 hy2 hy]

end

/-! ## The signing primitive: primality of the P-256 constants -/

theorem natCast_pow_eq_one_iff (q a e : Nat) (hq : 1 < q) :
    ((a : ZMod q) ^ e = 1) ↔ powMod q a e = 1 := by
  rw [powMod_eq]
  have h1 : ((a : ZMod q) ^ e = 1) ↔ (((a ^ e : ℕ) : ZMod q) = ((1 : ℕ) : ZMod q)) := by
    simp
  rw [h1, ZMod.natCast_eq_natCast_iff', Nat.mod_eq_of_lt hq]

theorem LucasStep.prime_of_valid (known : List Nat) (s : LucasStep)
    (hknown : ∀ k ∈ known, Nat.Prime k) (h : s.valid known = true) : Nat.Prime s.q := by
  simp only [LucasStep.valid, Bool.and_eq_true, decide_eq_true_eq, beq_iff_eq, List.all_eq_true,
    List.contains_iff_exists_mem_beq, bne_iff_ne, ne_eq] at h
  obtain ⟨⟨⟨⟨hq, hprod⟩, hmem⟩, hone⟩, hne⟩ := h
  apply lucas_primality s.q (s.a : ZMod s.q)
  · exact (natCast_pow_eq_one_iff s.q s.a _ hq).mpr hone
  · intro r hr hdvd
    rw [← hprod] at hdvd
    obtain ⟨f, hf, hrf⟩ := (Prime.dvd_prod_iff (Nat.prime_iff.mp hr)).mp hdvd
    obtain ⟨k, hk, hkf⟩ := hmem f hf
    have hfk : f = k := by simpa using hkf
    have hfp : Nat.Prime f := hfk ▸ hknown k hk
    have : r = f := (Nat.prime_dvd_prime_iff_eq hr hfp).mp hrf
    subst this
    intro hcontra
    exact hne r hf ((natCast_pow_eq_one_iff s.q s.a _ hq).mp hcontra)

theorem certified_prime : ∀ (steps : List LucasStep) (known : List Nat),
    (∀ k ∈ known, Nat.Prime k) → ∀ q ∈ certified known steps, Nat.Prime q := by
  intro steps
  induction steps with
  | nil => intro known hknown q hq; exact hknown q hq
  | cons s rest ih =>
    intro known hknown q hq
    rw [certified] at hq
    split at hq
    · rename_i hv
      refine ih (s.q :: known) ?_ q hq
      intro k hk
      rcases List.mem_cons.mp hk with rfl | hk
      · exact LucasStep.prime_of_valid known s hknown hv
      · exact hknown k hk
    · exact ih known hknown q hq

theorem P256_p_prime : Nat.Prime P256.p := by
  apply certified_prime primalityChain [2]
  · intro k hk
    rw [List.mem_singleton.mp hk]
    exact Nat.prime_two
  · decide!

theorem P256_n_prime : Nat.Prime P256.n := by
  apply certified_prime primalityChain [2]
  · intro k hk
    rw [List.mem_singleton.mp hk]
    exact Nat.prime_two
  · decide!

/-! ## The signing primitive: signatures verify -/

theorem signLoop_ok (c : Curve) (strategy : NonceStrategy) (entropy : Entropy)
    (privateKey : Nat) (digest : HashBuf) (e : Nat) :
    ∀ (tries counter r s : Nat),
      signLoop c strategy entropy privateKey digest e tries counter = Except.ok (r, s) →
      ∃ k x y kinv, 0 < k ∧ k < c.n
        ∧ scalarMultiply c k (basePoint c) = Except.ok (CurvePoint.affine x y)
        ∧ r = x % c.n ∧ r ≠ 0
        ∧ scalarInverse c k = Except.ok kinv
        ∧ s = scalarMul c kinv (scalarAdd c e (scalarMul c r privateKey)) ∧ s ≠ 0 := by
  intro tries
  induction tries with
  | zero =>
    intro counter r s h
    simp [signLoop] at h
  | succ tries ih =>
    intro counter r s h
    rw [signLoop] at h
    split at h
    · cases h
    · rename_i k hk
      split at h
      · exact ih _ r s h
      · rename_i hrange
        split at h
        · cases h
        · cases h
        · rename_i x y hx
          split at h
          · exact ih _ r s h
          · rename_i hr0
            split at h
            · cases h
            · rename_i kinv hkinv
              split at h
              · exact ih _ r s h
              · rename_i hs0
                simp only [Except.ok.injEq, Prod.mk.injEq] at h
                obtain ⟨rfl, rfl⟩ := h
                exact ⟨k, x, y, kinv, by omega, by omega, hx, rfl, hr0, hkinv, rfl, hs0⟩

theorem nsmul_eq_of_mod_eq {G : Type} [AddCommGroup G] (g : G) (n a b : Nat)
    (hn : n • g = 0) (hab : a % n = b % n) : a • g = b • g := by
  have h : ∀ m : Nat, m • g = (m % n) • g := by
    intro m
    conv_lhs => rw [← Nat.mod_add_div m n]
    rw [add_nsmul, mul_nsmul, hn, nsmul_zero, add_zero]
  rw [h a, h b, hab]

section
variable (c : Curve) [hn : Fact (Nat.Prime c.n)]

theorem cast_scalarAdd (a b : Nat) : ((scalarAdd c a b : ℕ) : ZMod c.n) = (a : ZMod c.n) + b := by
  simp [scalarAdd]

theorem cast_scalarMul (a b : Nat) : ((scalarMul c a b : ℕ) : ZMod c.n) = (a : ZMod c.n) * b := by
  simp [scalarMul]

theorem scalarInverse_spec (a : Nat) (ha : (a : ZMod c.n) ≠ 0) :
    ∃ v, scalarInverse c a = Except.ok v ∧ (v : ZMod c.n) = (a : ZMod c.n)⁻¹ := by
  have hmod : a % c.n ≠ 0 := by
    intro h
    apply ha
    rw [ZMod.natCast_zmod_eq_zero_iff_dvd]
    exact Nat.dvd_of_mod_eq_zero h
  refine ⟨powMod c.n a (c.n - 2), by simp [scalarInverse, hmod], ?_⟩
  rw [powMod_eq, ZMod.natCast_mod, Nat.cast_pow]
  have h1 : (a : ZMod c.n) ^ (c.n - 1) = 1 := ZMod.pow_card_sub_one_eq_one ha
  have h2 : c.n - 1 = (c.n - 2) + 1 := by
    have := hn.out.two_le
    omega
  rw [h2, pow_succ] at h1
  exact eq_inv_of_mul_eq_one_left h1

theorem scalar_ne_zero (a : Nat) (ha : a < c.n) (h0 : a ≠ 0) : (a : ZMod c.n) ≠ 0 := by
  intro h
  rw [ZMod.natCast_zmod_eq_zero_iff_dvd] at h
  exact h0 (Nat.eq_zero_of_dvd_of_lt h ha)

end

theorem verify_of_signature (c : Curve) (hv : c.Valid) (d : Nat) (digest : HashBuf)
    (hd : 1 ≤ d ∧ d ≤ c.n - 1) (k x y kinv : Nat) (hk0 : 0 < k) (hkn : k < c.n)
    (hR : scalarMultiply c k (basePoint c) = Except.ok (CurvePoint.affine x y))
    (hr0 : x % c.n ≠ 0) (hkinv : scalarInverse c k = Except.ok kinv)
    (hs0 : scalarMul c kinv (scalarAdd c (bigEndianValue (List.ofFn digest) % c.n)
        (scalarMul c (x % c.n) d)) ≠ 0) :
    ∃ Q, publicKey c d = Except.ok Q
      ∧ verify c Q digest (x % c.n)
          (scalarMul c kinv (scalarAdd c (bigEndianValue (List.ofFn digest) % c.n)
            (scalarMul c (x % c.n) d))) = true := by
  haveI : Fact (Nat.Prime c.p) := ⟨hv.p_prime⟩
  haveI : Fact (Nat.Prime c.n) := ⟨hv.n_prime⟩
  have hgt := hv.p_gt
  have hnpos : 0 < c.n := hv.n_prime.pos
  -- the base point
  have hGeq : (curveW c).Equation (c.gx : ZMod c.p) (c.gy : ZMod c.p) :=
    (onCurve_iff_equation c c.gx c.gy).mp hv.g_on
  have hGns := nonsingular_of_equation c hgt hv.disc hGeq
  have hG : Represents c (basePoint c) (WeierstrassCurve.Affine.Point.some hGns) :=
    ⟨hv.gx_lt, hv.gy_lt, hGns, rfl⟩
  generalize hGdef : WeierstrassCurve.Affine.Point.some hGns = G at hG
  have hGne : G ≠ 0 := by
    rw [← hGdef]
    exact WeierstrassCurve.Affine.Point.some_ne_zero hGns
  have hord : c.n • G = 0 := by
    obtain ⟨R, hR1, hR2⟩ := pointMul_spec c hgt c.n (basePoint c) G hG
    rw [hv.g_order] at hR1
    cases hR1
    exact hR2
  -- the nonce point
  have hkG : Represents c (CurvePoint.affine x y) (k • G) := by
    obtain ⟨R, hR1, hR2⟩ := pointMul_spec c hgt k (basePoint c) G hG
    have hk' : ¬ (k = 0 ∧ basePoint c = basePoint c) := by omega
    rw [scalarMultiply, if_neg hk', hR1] at hR
    cases hR
    exact hR2
  -- the public key
  obtain ⟨Q, hQ1, hQ2⟩ := pointMul_spec c hgt d (basePoint c) G hG
  have hd' : ¬ (d = 0 ∧ basePoint c = basePoint c) := by omega
  have hdG : d • G ≠ 0 := by
    intro hcontra
    have hdvd := addOrderOf_dvd_iff_nsmul_eq_zero.mpr hcontra
    rw [addOrderOf_eq_prime hord hGne] at hdvd
    have := Nat.le_of_dvd (by omega) hdvd
    omega
  refine ⟨Q, by rw [publicKey, scalarMultiply, if_neg hd', hQ1], ?_⟩
  cases Q with
  | infinity => exact absurd hQ2 hdG
  | affine qx qy =>
    obtain ⟨hqx, hqy, hqns, hqeq⟩ := hQ2
    have hqon : onCurve c (CurvePoint.affine qx qy) = true :=
      (onCurve_iff_equation c qx qy).mpr hqns.left
    set e := bigEndianValue (List.ofFn digest) % c.n with he
    set r := x % c.n with hr
    set s := scalarMul c kinv (scalarAdd c e (scalarMul c r d)) with hs
    have hrn : r < c.n := Nat.mod_lt _ hnpos
    have hsn : s < c.n := Nat.mod_lt _ hnpos
    have hkz : (k : ZMod c.n) ≠ 0 := scalar_ne_zero c k hkn (by omega)
    have hsz : (s : ZMod c.n) ≠ 0 := scalar_ne_zero c s hsn hs0
    obtain ⟨kinv', hkinv', hkinvz⟩ := scalarInverse_spec c k hkz
    rw [hkinv] at hkinv'
    cases hkinv'
    obtain ⟨w, hw, hwz⟩ := scalarInverse_spec c s hsz
    obtain ⟨A, hA1, hA2⟩ := pointMul_spec c hgt (scalarMul c e w) (basePoint c) G hG
    obtain ⟨B, hB1, hB2⟩ := pointMul_spec c hgt (scalarMul c r w) (CurvePoint.affine qx qy)
      (d • G) ⟨hqx, hqy, hqns, hqeq⟩
    obtain ⟨C, hC1, hC2⟩ := add_spec c hgt A B _ _ hA2 hB2
    have hsum : scalarMul c e w • G + scalarMul c r w • d • G = k • G := by
      rw [← mul_nsmul, ← add_nsmul]
      apply nsmul_eq_of_mod_eq G c.n _ _ hord
      apply (ZMod.natCast_eq_natCast_iff' _ _ _).mp
      have hsval : (s : ZMod c.n) = (k : ZMod c.n)⁻¹ * ((e : ZMod c.n) + r * d) := by
        rw [hs, cast_scalarMul, cast_scalarAdd, cast_scalarMul, hkinvz]
      have ht : ((e : ZMod c.n) + r * d) ≠ 0 := by
        intro hcontra
        apply hsz
        rw [hsval, hcontra, mul_zero]
      push_cast
      rw [cast_scalarMul, cast_scalarMul, hwz, hsval]
      field_simp
      ring
    rw [hsum] at hC2
    have hCeq : C = CurvePoint.affine x y := represents_unique c _ _ _ hC2 hkG
    subst hCeq
    have hcond : qx < c.p ∧ qy < c.p ∧ onCurve c (CurvePoint.affine qx qy) = true :=
      ⟨hqx, hqy, hqon⟩
    have hrange : ¬ (r = 0 ∨ c.n ≤ r ∨ s = 0 ∨ c.n ≤ s) := by
      have : r ≠ 0 := hr0
      omega
    simp only [verify, hcond, not_true_eq_false, if_false, hrange, hw, hA1, hB1, hC1,
      and_self, beq_self_eq_true]

theorem P256_valid : P256.Valid where
  p_prime := P256_p_prime
  p_gt := by decide
  n_prime := P256_n_prime
  disc := by decide!
  gx_lt := by decide
  gy_lt := by decide
  g_on := by decide!
  g_order := by decide!

theorem valid_basePoint (c : Curve) (hv : c.Valid) [Fact (Nat.Prime c.p)] :
    ∃ G : (curveW c).Point, Represents c (basePoint c) G ∧ G ≠ 0 ∧ c.n • G = 0 := by
  have hGeq : (curveW c).Equation (c.gx : ZMod c.p) (c.gy : ZMod c.p) :=
    (onCurve_iff_equation c c.gx c.gy).mp hv.g_on
  have hGns := nonsingular_of_equation c hv.p_gt hv.disc hGeq
  have hG : Represents c (basePoint c) (WeierstrassCurve.Affine.Point.some hGns) :=
    ⟨hv.gx_lt, hv.gy_lt, hGns, rfl⟩
  refine ⟨_, hG, WeierstrassCurve.Affine.Point.some_ne_zero hGns, ?_⟩
  obtain ⟨R, hR1, hR2⟩ := pointMul_spec c hv.p_gt c.n (basePoint c) _ hG
  rw [hv.g_order] at hR1
  cases hR1
  exact hR2

theorem nsmul_ne_zero_of_lt {A : Type} [AddCommGroup A] (g : A) (n k : Nat)
    (hn : Nat.Prime n) (hg : g ≠ 0) (hord : n • g = 0) (hk0 : 0 < k) (hkn : k < n) :
    k • g ≠ 0 := by
  haveI : Fact (Nat.Prime n) := ⟨hn⟩
  intro hcontra
  have hdvd := addOrderOf_dvd_iff_nsmul_eq_zero.mpr hcontra
  rw [addOrderOf_eq_prime hord hg] at hdvd
  have := Nat.le_of_dvd hk0 hdvd
  omega

theorem scalarMultiply_affine (c : Curve) (hv : c.Valid) (k : Nat) (hk0 : 0 < k)
    (hkn : k < c.n) :
    ∃ x y, scalarMultiply c k (basePoint c) = Except.ok (CurvePoint.affine x y) := by
  haveI : Fact (Nat.Prime c.p) := ⟨hv.p_prime⟩
  obtain ⟨G, hG, hGne, hord⟩ := valid_basePoint c hv
  obtain ⟨R, hR1, hR2⟩ := pointMul_spec c hv.p_gt k (basePoint c) G hG
  have hk' : ¬ (k = 0 ∧ basePoint c = basePoint c) := by omega
  have hne := nsmul_ne_zero_of_lt G c.n k hv.n_prime hGne hord hk0 hkn
  cases R with
  | infinity => exact absurd hR2 hne
  | affine x y => exact ⟨x, y, by rw [scalarMultiply, if_neg hk', hR1]⟩

theorem signLoop_error (c : Curve) (hv : c.Valid) (strategy : NonceStrategy)
    (entropy : Entropy) (privateKey : Nat) (digest : HashBuf) (e : Nat) :
    ∀ (tries counter : Nat) (err : SignError),
      signLoop c strategy entropy privateKey digest e tries counter = Except.error err →
      err = SignError.EntropyUnavailable ∨ err = SignError.NonceExhausted := by
  haveI : Fact (Nat.Prime c.n) := ⟨hv.n_prime⟩
  intro tries
  induction tries with
  | zero =>
    intro counter err h
    simp only [signLoop, Except.error.injEq] at h
    exact Or.inr h.symm
  | succ tries ih =>
    intro counter err h
    rw [signLoop] at h
    split at h
    · rename_i err' hgen
      left
      cases strategy with
      | rfc6979 derive => simp [generateNonce] at hgen
      | randomized =>
        simp only [generateNonce] at hgen
        split at hgen
        · cases hgen
          exact (Except.error.inj h).symm
        · cases hgen
    · rename_i k hk
      split at h
      · exact ih _ err h
      · rename_i hrange
        obtain ⟨x, y, hxy⟩ := scalarMultiply_affine c hv k (by omega) (by omega)
        rw [hxy] at h
        simp only at h
        split at h
        · exact ih _ err h
        · obtain ⟨kinv, hkinv, -⟩ :=
            scalarInverse_spec c k (scalar_ne_zero c k (by omega) (by omega))
          rw [hkinv] at h
          simp only at h
          split at h
          · exact ih _ err h
          · cases h

/-! ## The signing primitive: the claims -/

theorem P256_n_lt : P256.n < 2 ^ 256 := by
  decide

theorem bigEndianValue_rsBuffer (r s : Nat) (hr : r < 2 ^ 256) (hs : s < 2 ^ 256) :
    bigEndianValue ((List.ofFn (rsBuffer r s)).take 32) = r
    ∧ bigEndianValue ((List.ofFn (rsBuffer r s)).drop 32) = s := by
  have hlenA : (List.ofFn (fun i : Fin 32 =>
      (Fin.ofNat (r / 256 ^ (32 - 1 - i.val)) : Byte))).length = 32 := List.length_ofFn _
  have hpow : (256 : Nat) ^ 32 = 2 ^ 256 := by norm_num
  unfold bigEndianValue
  rw [ofFn_rsBuffer, List.take_left' hlenA, List.drop_left' hlenA, bigEndian_foldl 32 r,
    bigEndian_foldl 32 s, hpow, Nat.mod_eq_of_lt hr, Nat.mod_eq_of_lt hs]
  exact ⟨rfl, rfl⟩

theorem ECDSA_256_sign_ok (strategy : NonceStrategy) (entropy : Entropy) (maxTries : Nat)
    (sigOut : SigBuf) (digest : HashBuf) (privateKey : Nat) (out : SigBuf)
    (h : ECDSA_256_sign strategy entropy maxTries sigOut digest privateKey = Except.ok out) :
    ∃ r s, sign P256 strategy entropy maxTries privateKey digest = Except.ok (r, s)
      ∧ out = rsBuffer r s := by
  unfold ECDSA_256_sign at h
  split at h
  · cases h
  · rename_i r s hs
    exact ⟨r, s, hs, (Except.ok.inj h).symm⟩

theorem ECDSA_256_sign_of_sign (strategy : NonceStrategy) (entropy : Entropy) (maxTries : Nat)
    (sigOut : SigBuf) (digest : HashBuf) (privateKey : Nat) (r s : Nat)
    (h : sign P256 strategy entropy maxTries privateKey digest = Except.ok (r, s)) :
    ECDSA_256_sign strategy entropy maxTries sigOut digest privateKey
      = Except.ok (rsBuffer r s) := by
  simp only [ECDSA_256_sign, h]

theorem ECDSA_256_sign_error (strategy : NonceStrategy) (entropy : Entropy) (maxTries : Nat)
    (sigOut : SigBuf) (digest : HashBuf) (privateKey : Nat) (err : SignError)
    (h : ECDSA_256_sign strategy entropy maxTries sigOut digest privateKey = Except.error err) :
    sign P256 strategy entropy maxTries privateKey digest = Except.error err := by
  unfold ECDSA_256_sign at h
  split at h
  · rename_i err' hs
    rw [hs, Except.error.inj h]
  · cases h

theorem linkedSigner_of_sign (strategy : NonceStrategy) (entropy : Entropy) (maxTries : Nat)
    (privateKey : Nat) (sig0 : SigBuf) (digest : HashBuf) (r s : Nat)
    (h : sign P256 strategy entropy maxTries privateKey digest = Except.ok (r, s)) :
    linkedSigner strategy entropy maxTries privateKey sig0 digest = some (rsBuffer r s) := by
  simp only [linkedSigner, ECDSA_256_sign, h]

theorem linkedSigner_of_error (strategy : NonceStrategy) (entropy : Entropy) (maxTries : Nat)
    (privateKey : Nat) (sig0 : SigBuf) (digest : HashBuf) (err : SignError)
    (h : sign P256 strategy entropy maxTries privateKey digest = Except.error err) :
    linkedSigner strategy entropy maxTries privateKey sig0 digest = some sig0 := by
  simp only [linkedSigner, ECDSA_256_sign, h]

theorem sign_range (strategy : NonceStrategy) (entropy : Entropy) (maxTries : Nat)
    (privateKey : Nat) (digest : HashBuf) (r s : Nat)
    (h : sign P256 strategy entropy maxTries privateKey digest = Except.ok (r, s)) :
    (1 ≤ r ∧ r ≤ P256.n - 1) ∧ (1 ≤ s ∧ s ≤ P256.n - 1) := by
  obtain ⟨k, x, y, kinv, hk0, hkn, -, hr, hr0, -, hs, hs0⟩ :=
    signLoop_ok P256 strategy entropy privateKey digest _ maxTries 0 r s h
  have hr2 : r < P256.n := by
    rw [hr]
    exact Nat.mod_lt _ (by omega)
  have hs2 : s < P256.n := by
    rw [hs]
    exact Nat.mod_lt _ (by omega)
  omega

theorem sign_verifies (strategy : NonceStrategy) (entropy : Entropy) (maxTries : Nat)
    (privateKey : Nat) (digest : HashBuf) (r s : Nat)
    (hkey : 1 ≤ privateKey ∧ privateKey ≤ P256.n - 1)
    (h : sign P256 strategy entropy maxTries privateKey digest = Except.ok (r, s)) :
    ∃ Q, publicKey P256 privateKey = Except.ok Q ∧ verify P256 Q digest r s = true := by
  obtain ⟨k, x, y, kinv, hk0, hkn, hR, hr, hr0, hkinv, hs, hs0⟩ :=
    signLoop_ok P256 strategy entropy privateKey digest _ maxTries 0 r s h
  subst hr
  subst hs
  exact verify_of_signature P256 P256_valid privateKey digest hkey k x y kinv hk0 hkn hR hr0
    hkinv hs0

/-- The signature used in the examples: `sampleKey`, the all-`0xAA` digest
of the driver, nonce derived by `sampleDerive`. -/
theorem sign_sample :
    sign P256 (NonceStrategy.rfc6979 sampleDerive) noEntropy 10 sampleKey main_hash
      = Except.ok (sampleR, sampleS) := by
  decide!

/-- With the randomized strategy the signature does depend on the entropy
source. -/
theorem sign_randomized_depends_on_entropy :
    sign P256 NonceStrategy.randomized (constEntropy 7) 10 sampleKey main_hash
      ≠ sign P256 NonceStrategy.randomized (constEntropy 8) 10 sampleKey main_hash := by
  decide!

/-- C6: for every valid private key and every 32-byte digest, whenever the
signing function fills the output buffer, the big-endian integer `r` in
bytes 0..31 and the big-endian integer `s` in bytes 32..63 both lie in
`[1, n − 1]` for the order `n` of P-256; and the only failures of the signing
function are those of its nonce source (`EntropyUnavailable`,
`NonceExhausted`). -/
theorem C6_signature_components_in_range (strategy : NonceStrategy) (entropy : Entropy)
    (maxTries : Nat) (sigOut : SigBuf) (digest : HashBuf) (privateKey : Nat)
    (_hkey : 1 ≤ privateKey ∧ privateKey ≤ P256.n - 1) :
    (∀ out : SigBuf,
        ECDSA_256_sign strategy entropy maxTries sigOut digest privateKey = Except.ok out →
        (1 ≤ bigEndianValue ((List.ofFn out).take 32)
          ∧ bigEndianValue ((List.ofFn out).take 32) ≤ P256.n - 1)
        ∧ (1 ≤ bigEndianValue ((List.ofFn out).drop 32)
          ∧ bigEndianValue ((List.ofFn out).drop 32) ≤ P256.n - 1))
    ∧ (∀ err : SignError,
        ECDSA_256_sign strategy entropy maxTries sigOut digest privateKey = Except.error err →
        err = SignError.EntropyUnavailable ∨ err = SignError.NonceExhausted) := by
  constructor
  · intro out hsign
    obtain ⟨r, s, hs, rfl⟩ :=
      ECDSA_256_sign_ok strategy entropy maxTries sigOut digest privateKey out hsign
    have hrange := sign_range strategy entropy maxTries privateKey digest r s hs
    have hn := P256_n_lt
    obtain ⟨hbr, hbs⟩ := bigEndianValue_rsBuffer r s (by omega) (by omega)
    rw [hbr, hbs]
    exact hrange
  · intro err herr
    have hs := ECDSA_256_sign_error strategy entropy maxTries sigOut digest privateKey err herr
    exact signLoop_error P256 P256_valid strategy entropy privateKey digest _ maxTries 0 err hs

/-- Witness for C6: the all-`0xAA` digest of the driver signed under
`sampleKey`. -/
theorem C6_witness :
    (1 ≤ sampleKey ∧ sampleKey ≤ P256.n - 1)
    ∧ ECDSA_256_sign (NonceStrategy.rfc6979 sampleDerive) noEntropy 10 zeroSig main_hash
        sampleKey = Except.ok (rsBuffer sampleR sampleS)
    ∧ (1 ≤ bigEndianValue ((List.ofFn (rsBuffer sampleR sampleS)).take 32)
        ∧ bigEndianValue ((List.ofFn (rsBuffer sampleR sampleS)).take 32) ≤ P256.n - 1)
    ∧ (1 ≤ bigEndianValue ((List.ofFn (rsBuffer sampleR sampleS)).drop 32)
        ∧ bigEndianValue ((List.ofFn (rsBuffer sampleR sampleS)).drop 32) ≤ P256.n - 1) :=
  ⟨by decide, ECDSA_256_sign_of_sign _ _ _ _ _ _ _ _ sign_sample,
    (C6_signature_components_in_range (NonceStrategy.rfc6979 sampleDerive) noEntropy 10 zeroSig
      main_hash sampleKey (by decide)).1 (rsBuffer sampleR sampleS)
      (ECDSA_256_sign_of_sign _ _ _ _ _ _ _ _ sign_sample)⟩

/-- C7: for every valid private key `d` and every 32-byte digest, whenever
the signing function fills the output buffer, the public key `d·G` exists and
standard ECDSA P-256 verification accepts the pair `(r, s)` held by the
buffer; in particular, for the all-`0xAA` digest, the two halves of the line
the driver prints, read as base-16 numerals, verify under that public key. -/
theorem C7_signature_verifies (strategy : NonceStrategy) (entropy : Entropy)
    (maxTries : Nat) (sigOut : SigBuf) (digest : HashBuf) (privateKey : Nat) (out : SigBuf)
    (hkey : 1 ≤ privateKey ∧ privateKey ≤ P256.n - 1)
    (hsign : ECDSA_256_sign strategy entropy maxTries sigOut digest privateKey
      = Except.ok out) :
    ∃ Q, publicKey P256 privateKey = Except.ok Q
      ∧ verify P256 Q digest (bigEndianValue ((List.ofFn out).take 32))
          (bigEndianValue ((List.ofFn out).drop 32)) = true
      ∧ (digest = main_hash →
          ∀ (argc : Int) (argv : List String) (sig0 : SigBuf),
            ∃ r s,
              readHex ((main argc argv sig0
                  (linkedSigner strategy entropy maxTries privateKey)).stdout.take 64) = some r
              ∧ readHex (((main argc argv sig0
                  (linkedSigner strategy entropy maxTries privateKey)).stdout.drop 64).take 64)
                  = some s
              ∧ verify P256 Q main_hash r s = true) := by
  obtain ⟨r, s, hs, rfl⟩ :=
    ECDSA_256_sign_ok strategy entropy maxTries sigOut digest privateKey out hsign
  obtain ⟨Q, hQ, hver⟩ := sign_verifies strategy entropy maxTries privateKey digest r s hkey hs
  have hrange := sign_range strategy entropy maxTries privateKey digest r s hs
  have hn := P256_n_lt
  have hr : r < 2 ^ 256 := by omega
  have hs2 : s < 2 ^ 256 := by omega
  obtain ⟨hbr, hbs⟩ := bigEndianValue_rsBuffer r s hr hs2
  refine ⟨Q, hQ, by rw [hbr, hbs]; exact hver, ?_⟩
  intro hdig argc argv sig0
  subst hdig
  have hlink := linkedSigner_of_sign strategy entropy maxTries privateKey sig0 main_hash r s hs
  rw [main_stdout argc argv sig0 (rsBuffer r s) _ hlink]
  obtain ⟨h1, h2⟩ := readHex_hexLine_rsBuffer r s hr hs2
  exact ⟨r, s, h1, h2, hver⟩

/-- Witness for C7: the all-`0xAA` digest of the driver signed under
`sampleKey`. -/
theorem C7_witness :
    (1 ≤ sampleKey ∧ sampleKey ≤ P256.n - 1)
    ∧ ECDSA_256_sign (NonceStrategy.rfc6979 sampleDerive) noEntropy 10 zeroSig main_hash
        sampleKey = Except.ok (rsBuffer sampleR sampleS)
    ∧ ∃ Q, publicKey P256 sampleKey = Except.ok Q
        ∧ verify P256 Q main_hash
            (bigEndianValue ((List.ofFn (rsBuffer sampleR sampleS)).take 32))
            (bigEndianValue ((List.ofFn (rsBuffer sampleR sampleS)).drop 32)) = true :=
  ⟨by decide, ECDSA_256_sign_of_sign _ _ _ _ _ _ _ _ sign_sample,
    (C7_signature_verifies (NonceStrategy.rfc6979 sampleDerive) noEntropy 10 zeroSig main_hash
      sampleKey (rsBuffer sampleR sampleS) (by decide)
      (ECDSA_256_sign_of_sign _ _ _ _ _ _ _ _ sign_sample)).imp fun _ h => ⟨h.1, h.2.1⟩⟩

end Whibox
